import Mathlib

/-!
# Verification of the `QuicIntervalSet` core

Shallow embedding of the interval-set container found in the repository dump
(the template `quic::QuicIntervalSet<T>`, instantiated here at `T = Int`).
The container stores a sorted collection of half-open intervals `[min, max)`
inside an ordered index (`std::set` with the custom comparator
`IntervalLess`).  We model that index as a Lean `List` that is kept sorted by
the same strict comparator, with `std::set::insert`, `upper_bound`,
`lower_bound`, iterator positions, and `erase` rendered as positional list
operations.  `while` loops of the source that are not structurally recursive
are rendered as fuel-indexed recursions returning `Option` (`none` = fuel
exhausted, which for the loops of the source corresponds to divergence); the
public entry points run them with the fuel bounds established by the
termination theorems below.
-/

namespace QuicModel

/-- Modelled from the spec: the interval value type `QuicInterval<T>`
(`quic_interval.h` is included by the dumped header but its source is not part
of the dump).  Spec §3: attributes `min : T`, `max : T`, denoting the
half-open range `[min, max)`; instantiated at `T = Int`. -/
structure QuicInterval where
  min : Int
  max : Int
deriving DecidableEq, Repr

instance : Inhabited QuicInterval := ⟨⟨0, 0⟩⟩

namespace QuicInterval

/-- Modelled from the spec §3: an interval is empty when `min >= max`. -/
def Empty (i : QuicInterval) : Bool := i.max ≤ i.min

/-- Modelled from the spec §3: point containment `min <= v && v < max`. -/
def ContainsValue (i : QuicInterval) (v : Int) : Bool := i.min ≤ v && v < i.max

/-- Modelled from the spec §4.1 (and the doc comment of
`QuicIntervalSet::Contains(const value_type&)` in the dumped source):
containment of another interval returns `false` for an empty argument — the
documented convention callers rely on — and otherwise requires
`min <= o.min && o.max <= max`. -/
def Contains (i o : QuicInterval) : Bool := !o.Empty && i.min ≤ o.min && o.max ≤ i.max

/-- Modelled from the spec §3: a non-empty overlap exists iff both intervals
are non-empty and `max > o.min && o.max > min`. -/
def Intersects (i o : QuicInterval) : Bool :=
  !i.Empty && !o.Empty && o.min < i.max && i.min < o.max

/-- Modelled from the spec §3: the materialized intersection
`[max(min, o.min), min(max, o.max))` (the out-parameter of
`Intersects(other, &intersection)`). -/
def IntersectionWith (i o : QuicInterval) : QuicInterval :=
  ⟨Max.max i.min o.min, Min.min i.max o.max⟩

/-- Modelled from the spec §3: `Difference` yields `(lo, hi)` with
`lo = [min, min(max, o.min))` and `hi = [max(min, o.max), max)`. -/
def Difference (i o : QuicInterval) : QuicInterval × QuicInterval :=
  (⟨i.min, Min.min i.max o.min⟩, ⟨Max.max i.min o.max, i.max⟩)

/-- Modelled from the spec §4.1: `SetMin` mutates the `min` endpoint. -/
def SetMin (i : QuicInterval) (v : Int) : QuicInterval := ⟨v, i.max⟩

/-- Modelled from the spec §4.1: `SetMax` mutates the `max` endpoint. -/
def SetMax (i : QuicInterval) (v : Int) : QuicInterval := ⟨i.min, v⟩

end QuicInterval

/-- The container's internal representation: the ordered `std::set` contents
listed in iteration order. -/
abbrev ISet := List QuicInterval

namespace QuicIntervalSet

open QuicInterval

/-- `QuicIntervalSet::IntervalLess::operator()` (source lines 1023–1027):
`a.min() < b.min() || (a.min() == b.min() && a.max() > b.max())`. -/
def IntervalLess (a b : QuicInterval) : Bool :=
  a.min < b.min || (a.min == b.min && b.max < a.max)

/-- `IntervalLess` as a proposition (the strict weak order of the index). -/
def LessP (a b : QuicInterval) : Prop := IntervalLess a b = true

/-- `std::set::upper_bound(k)` on the sorted representation: the position of
the first element strictly greater than `k` under the comparator. -/
def upperBoundIdx (l : ISet) (k : QuicInterval) : Nat :=
  match l with
  | [] => 0
  | x :: xs => if IntervalLess k x then 0 else upperBoundIdx xs k + 1

/-- `std::set::lower_bound(k)`: the position of the first element that is not
strictly less than `k` under the comparator. -/
def lowerBoundIdx (l : ISet) (k : QuicInterval) : Nat :=
  match l with
  | [] => 0
  | x :: xs => if IntervalLess x k then lowerBoundIdx xs k + 1 else 0

/-- `std::set::insert(a)` on the sorted representation: returns the new
contents, the position of `a` (or of the equivalent element already present),
and whether insertion took place. -/
def setInsert (l : ISet) (a : QuicInterval) : ISet × Nat × Bool :=
  match l with
  | [] => ([a], 0, true)
  | x :: xs =>
    if IntervalLess a x then (a :: x :: xs, 0, true)
    else if IntervalLess x a then
      let r := setInsert xs a
      (x :: r.1, r.2.1 + 1, r.2.2)
    else (x :: xs, 0, false)

/-- `std::set::insert(first, last)` used by `Union` (source line 752): insert
every element of `other`, skipping elements equivalent to one already
present. -/
def setInsertAll (l : ISet) (other : ISet) : ISet :=
  other.foldl (fun acc x => (setInsert acc x).1) l

/-- The walk of `QuicIntervalSet::Compact` with `prev` carried explicitly:
whenever `prev->max() >= it->min()` the pair is replaced by
`[prev.min, max(prev.max, it.max))`, which becomes the new `prev`; otherwise
`prev` is emitted and `it` becomes the new `prev`. -/
def compactGo (prev : QuicInterval) : ISet → ISet
  | [] => [prev]
  | y :: rest =>
    if y.min ≤ prev.max then compactGo ⟨prev.min, Max.max prev.max y.max⟩ rest
    else prev :: compactGo y rest

/-- `QuicIntervalSet::Compact` (source lines 950–977) restricted to the
iterator range it is invoked on. -/
def compactList : ISet → ISet
  | [] => []
  | x :: xs => compactGo x xs

/-- The `while (it != end)` loop of `QuicIntervalSet::Compact` (source lines
950–977) with its iteration count made explicit as fuel, `none` meaning the
fuel ran out before the loop exited.  Used to state that the loop terminates
within `length` iterations. -/
def compactFuel : Nat → QuicInterval → ISet → Option ISet
  | 0, _, _ => none
  | _ + 1, prev, [] => some [prev]
  | fuel + 1, prev, y :: rest =>
    if y.min ≤ prev.max then compactFuel fuel ⟨prev.min, Max.max prev.max y.max⟩ rest
    else (compactFuel fuel y rest).map (fun t => prev :: t)

/-- `Compact(begin, end)` where `begin`/`end` are the positions `b`/`e` in the
current contents: only the segment `[b, e)` is walked, the rest is
untouched. -/
def compactSeg (l : ISet) (b e : Nat) : ISet :=
  l.take b ++ compactList ((l.drop b).take (e - b)) ++ l.drop e

/-- `QuicIntervalSet::Add` (source lines 531–552): ignore an empty interval,
insert (a refused insertion means the exact interval is already present),
then `Compact` from the inserted position's left neighbour up to
`upper_bound([interval.max, interval.max))`.  The source's locals `ins`,
`begin`, `end` are inlined. -/
def Add (l : ISet) (interval : QuicInterval) : ISet :=
  if interval.Empty then l
  else if !(setInsert l interval).2.2 then l
  else
    compactSeg (setInsert l interval).1
      (if (setInsert l interval).2.1 = 0 then 0 else (setInsert l interval).2.1 - 1)
      (upperBoundIdx (setInsert l interval).1 ⟨interval.max, interval.max⟩)

/-- `QuicIntervalSet::Valid` (source lines 979–992): every interval is
non-empty and every adjacent pair `(prev, it)` satisfies
`prev->max() < it->min()`. -/
def Valid : ISet → Bool
  | [] => true
  | [x] => decide (x.min < x.max)
  | x :: y :: rest => decide (x.min < x.max) && decide (x.max < y.min) && Valid (y :: rest)

/-- The ordering half of the `Valid` invariant: every adjacent pair `(a, b)`
in iteration order satisfies `a.max < b.min`. -/
def Ordered (l : ISet) : Prop := l.Chain' fun a b => a.max < b.min

/-- The non-emptiness half of the `Valid` invariant. -/
def AllNE (l : ISet) : Prop := ∀ x ∈ l, x.min < x.max

/-- `QuicIntervalSet::Empty` (source line 273). -/
def SetEmpty (l : ISet) : Bool := l.isEmpty

/-- `QuicIntervalSet::Size` (source line 217). -/
def Size (l : ISet) : Nat := l.length

/-- `QuicIntervalSet::Clear` (source line 214). -/
def Clear (_ : ISet) : ISet := []

/-- `QuicIntervalSet::SpanningInterval` (source lines 520–529); the default
constructed `value_type` is the value-initialized `[0, 0)`. -/
def SpanningInterval (l : ISet) : QuicInterval :=
  match l with
  | [] => ⟨0, 0⟩
  | x :: _ => ⟨x.min, (l.getLast?.getD ⟨0, 0⟩).max⟩

/-- `QuicIntervalSet::AddOptimizedForAppend` (source lines 233–261). -/
def AddOptimizedForAppend (l : ISet) (interval : QuicInterval) : ISet :=
  match l.getLast? with
  | none => Add l interval
  | some last =>
    if interval.min < last.min || last.max < interval.min then Add l interval
    else if interval.max ≤ last.max then l
    else l.dropLast ++ [last.SetMax interval.max]

/-- `QuicIntervalSet::Contains(const T&)` (source lines 554–563). -/
def Contains (l : ISet) (value : Int) : Bool :=
  let it := upperBoundIdx l ⟨value, value⟩
  if it = 0 then false
  else (l.getD (it - 1) default).ContainsValue value

/-- `QuicIntervalSet::Contains(const value_type&)` (source lines 565–573). -/
def ContainsInterval (l : ISet) (interval : QuicInterval) : Bool :=
  let it := upperBoundIdx l interval
  if it = 0 then false
  else (l.getD (it - 1) default).Contains interval

/-- `QuicIntervalSet::Contains(const QuicIntervalSet&)` (source lines
575–588). -/
def ContainsSet (l other : ISet) : Bool :=
  if !(SpanningInterval l).Contains (SpanningInterval other) then false
  else other.all fun i => ContainsInterval l i

/-- `QuicIntervalSet::LowerBound` (source lines 710–727); positions play the
role of iterators, with `l.length` standing for `end()`. -/
def LowerBound (l : ISet) (value : Int) : Nat :=
  let it := lowerBoundIdx l ⟨value, value⟩
  if it = 0 then it
  else if (l.getD (it - 1) default).ContainsValue value then it - 1
  else it

/-- `QuicIntervalSet::UpperBound` (source lines 729–733). -/
def UpperBound (l : ISet) (value : Int) : Nat :=
  upperBoundIdx l ⟨value, value⟩

/-- `QuicIntervalSet::IsDisjoint` (source lines 735–748). -/
def IsDisjoint (l : ISet) (interval : QuicInterval) : Bool :=
  if interval.Empty then true
  else
    let it := upperBoundIdx l ⟨interval.min, interval.min⟩
    if it < l.length && (l.getD it default).min < interval.max then false
    else if it = 0 then true
    else (l.getD (it - 1) default).max ≤ interval.min

/-- `QuicIntervalSet::Union` (source lines 750–754): bulk-insert `other`, then
`Compact` over the whole index. -/
def Union (a b : ISet) : ISet :=
  let l := setInsertAll a b
  compactSeg l 0 l.length

/-- `QuicIntervalSet::FindIntersectionCandidate(const value_type&)` (source
lines 763–779). -/
def FindIntersectionCandidate (l : ISet) (interval : QuicInterval) : Nat :=
  let mine := upperBoundIdx l interval
  if mine = 0 then mine else mine - 1

/-- The two inner `while` loops of `FindNextIntersectingPairImpl` (source
lines 795–797 and 804–806): the number of leading elements of the remaining
suffix whose `max()` is `<=` the bound. -/
def skipLe (bound : Int) : ISet → Nat
  | [] => 0
  | a :: rest => if a.max ≤ bound then skipLe bound rest + 1 else 0

/-- `QuicIntervalSet::FindNextIntersectingPairImpl` (source lines 781–815)
with the no-op `on_hole` (the `FindNextIntersectingPair` instantiation, source
lines 476–482).  `mine`/`theirs` are positions into `x`/`y`; the outer `while`
is fuel-indexed, `none` meaning the fuel ran out. -/
def findPairGo (x y : ISet) : Nat → Nat → Nat → Option (Bool × Nat × Nat)
  | 0, _, _ => none
  | fuel + 1, mine, theirs =>
    if x.length ≤ mine ∨ y.length ≤ theirs then some (false, mine, theirs)
    else
      let t := y.getD theirs default
      if (x.getD mine default).Intersects t then some (true, mine, theirs)
      else
        let mine2 := mine + skipLe t.min (x.drop mine)
        if x.length ≤ mine2 then some (false, mine2, theirs)
        else
          let theirs2 := theirs + skipLe (x.getD mine2 default).min (y.drop theirs)
          if y.length ≤ theirs2 then some (false, mine2, theirs2)
          else findPairGo x y fuel mine2 theirs2

/-- `QuicIntervalSet::FindNextIntersectingPairImpl` with the erasing `on_hole`
(the `FindNextIntersectingPairAndEraseHoles` instantiation, source lines
486–494).  The mutating set is carried as the suffix `xs` of surviving
elements starting at `mine`; skipped holes are erased, and when one side is
exhausted the remaining tail of `mine` is erased as well (source line 810). -/
def findPairEraseGo (y : ISet) : Nat → ISet → Nat → Option (Bool × ISet × Nat)
  | 0, _, _ => none
  | fuel + 1, xs, th =>
    if xs.length = 0 ∨ y.length ≤ th then some (false, xs, th)
    else
      let t := y.getD th default
      if xs.headI.Intersects t then some (true, xs, th)
      else
        let xs2 := xs.drop (skipLe t.min xs)
        if xs2.length = 0 then some (false, xs2, th)
        else
          let th2 := th + skipLe xs2.headI.min (y.drop th)
          if y.length ≤ th2 then some (false, [], th2)
          else findPairEraseGo y fuel xs2 th2

/-- The inner insertion loop of `QuicIntervalSet::Intersection` (source lines
840–847): walk forward in `other` from `theirs`, inserting `i ∩ *theirs`
while it is non-empty. -/
def collectInters (i : QuicInterval) : ISet → ISet
  | [] => []
  | t :: rest =>
    if i.Intersects t then i.IntersectionWith t :: collectInters i rest else []

/-- The outer `while` loop of `QuicIntervalSet::Intersection` (source lines
829–851), fuel-indexed.  `xs` is the suffix of surviving original elements
starting at `mine` (inserted intersections accumulate in the result before
them), `th` the position of `theirs` in `other`. -/
def IntersectionLoop (y : ISet) : Nat → ISet → Nat → Option ISet
  | 0, _, _ => none
  | fuel + 1, xs, th =>
    match findPairEraseGo y (xs.length + y.length + 1) xs th with
    | none => none
    | some (false, survivors, _) => some survivors
    | some (true, xs2, th2) =>
      let inters := collectInters xs2.headI (y.drop th2)
      match IntersectionLoop y fuel (xs2.drop 1) (th2 + inters.length - 1) with
      | none => none
      | some rest => some (inters ++ rest)

/-- `QuicIntervalSet::Intersection` (source lines 817–853). -/
def Intersection (a b : ISet) : ISet :=
  if !(SpanningInterval a).Intersects (SpanningInterval b) then []
  else
    let mine := FindIntersectionCandidate a b.headI
    let xs := a.drop mine
    let th := FindIntersectionCandidate b xs.headI
    (IntersectionLoop b (xs.length + 1) xs th).getD []

/-- The outer `while` loop of `QuicIntervalSet::Difference(const
QuicIntervalSet&)` (source lines 897–918), fuel-indexed.  `xs` is the suffix
of the set starting at `mine`; skipped holes are kept, the intersecting
element is replaced by the non-empty parts of its interval difference, and
the high remainder (when non-empty) becomes the new `mine`. -/
def DiffLoop (y : ISet) : Nat → ISet → Nat → Option ISet
  | 0, _, _ => none
  | fuel + 1, xs, th =>
    match findPairGo xs y (xs.length + y.length + 1) 0 th with
    | none => none
    | some (false, _, _) => some xs
    | some (true, m, th2) =>
      let d := (xs.getD m default).Difference (y.getD th2 default)
      let rest := if d.2.Empty then xs.drop (m + 1) else d.2 :: xs.drop (m + 1)
      match DiffLoop y fuel rest th2 with
      | none => none
      | some tail => some (xs.take m ++ (if d.1.Empty then [] else [d.1]) ++ tail)

/-- `QuicIntervalSet::Difference(const QuicIntervalSet&)` (source lines
883–920). -/
def DifferenceSet (a b : ISet) : ISet :=
  if !(SpanningInterval a).Intersects (SpanningInterval b) then a
  else
    let mine := FindIntersectionCandidate a b.headI
    if a.length ≤ mine then a
    else
      let th := FindIntersectionCandidate b a.headI
      a.take mine ++
        (DiffLoop b (a.length + 2 * b.length + 2) (a.drop mine) th).getD (a.drop mine)

/-- `QuicIntervalSet::Difference(const value_type&)` (source lines 870–876):
check the spanning interval, then subtract the singleton set built from the
interval. -/
def DifferenceInterval (a : ISet) (interval : QuicInterval) : ISet :=
  if !(SpanningInterval a).Intersects interval then a
  else DifferenceSet a (Add [] interval)

/-- `QuicIntervalSet::Difference(const T&, const T&)` (source lines
878–881). -/
def DifferenceMinMax (a : ISet) (mn mx : Int) : ISet :=
  DifferenceInterval a ⟨mn, mx⟩

/-- `QuicIntervalSet::Complement` (source lines 922–927): build the set
`{[min, max)}`, subtract `*this` from it, and swap the storage in. -/
def Complement (a : ISet) (mn mx : Int) : ISet :=
  DifferenceSet (Add [] ⟨mn, mx⟩) a

/-- `QuicIntervalSet::Swap` (source line 427): constant-time storage
exchange. -/
def Swap (a b : ISet) : ISet × ISet := (b, a)

/-- `QuicIntervalSet::assign` (source lines 402–411): clear, then `Add` each
element of the listing. -/
def assign (l : ISet) (il : List QuicInterval) : ISet :=
  il.foldl Add (Clear l)

/-- The states reachable from the empty `QuicIntervalSet` by finite sequences
of public operations (construction, `Add`, `AddOptimizedForAppend`, `Union`,
`Intersection`, `Difference`, `Complement`, `Clear`, `Swap`, `assign`);
operands of the binary operations are themselves reachable sets. -/
inductive Reachable : ISet → Prop
  | empty : Reachable []
  | add {s} (i : QuicInterval) : Reachable s → Reachable (Add s i)
  | addOptimizedForAppend {s} (i : QuicInterval) :
      Reachable s → Reachable (AddOptimizedForAppend s i)
  | union {s t} : Reachable s → Reachable t → Reachable (Union s t)
  | intersection {s t} : Reachable s → Reachable t → Reachable (Intersection s t)
  | differenceInterval {s} (i : QuicInterval) :
      Reachable s → Reachable (DifferenceInterval s i)
  | differenceMinMax {s} (mn mx : Int) :
      Reachable s → Reachable (DifferenceMinMax s mn mx)
  | differenceSet {s t} : Reachable s → Reachable t → Reachable (DifferenceSet s t)
  | complement {s} (mn mx : Int) : Reachable s → Reachable (Complement s mn mx)
  | clear {s t} : Reachable s → Reachable (Clear t)
  | swapLeft {s t} : Reachable s → Reachable t → Reachable (Swap s t).1
  | swapRight {s t} : Reachable s → Reachable t → Reachable (Swap s t).2
  | assignList {s} (il : List QuicInterval) : Reachable s → Reachable (assign s il)

end QuicIntervalSet

namespace QuicInterval

theorem empty_iff {i : QuicInterval} : i.Empty = true ↔ i.max ≤ i.min := by
  simp [Empty]

theorem not_empty_iff {i : QuicInterval} : i.Empty = false ↔ i.min < i.max := by
  simp [Empty]

theorem intersects_iff {i o : QuicInterval} :
    i.Intersects o = true ↔
      i.min < i.max ∧ o.min < o.max ∧ o.min < i.max ∧ i.min < o.max := by
  simp [Intersects, not_empty_iff, Empty, and_assoc]

end QuicInterval

namespace QuicIntervalSet

open QuicInterval

theorem intervalLess_iff {a b : QuicInterval} :
    IntervalLess a b = true ↔ a.min < b.min ∨ (a.min = b.min ∧ b.max < a.max) := by
  simp [IntervalLess]

theorem lessP_iff {a b : QuicInterval} :
    LessP a b ↔ a.min < b.min ∨ (a.min = b.min ∧ b.max < a.max) := intervalLess_iff

theorem intervalLess_trans {a b c : QuicInterval}
    (hab : IntervalLess a b = true) (hbc : IntervalLess b c = true) :
    IntervalLess a c = true := by
  rw [intervalLess_iff] at *
  rcases hab with h1 | ⟨h1, h1'⟩ <;> rcases hbc with h2 | ⟨h2, h2'⟩
  · exact Or.inl (h1.trans h2)
  · exact Or.inl (h2 ▸ h1)
  · exact Or.inl (h1 ▸ h2)
  · exact Or.inr ⟨h1.trans h2, h2'.trans h1'⟩

theorem intervalLess_irrefl (a : QuicInterval) : IntervalLess a a = false := by
  simp [IntervalLess]

/-- Two intervals are equivalent under the comparator (neither is less than
the other) iff they have the same endpoints. -/
theorem equiv_iff {a b : QuicInterval} :
    (IntervalLess a b = false ∧ IntervalLess b a = false) ↔ a = b := by
  constructor
  · rintro ⟨h1, h2⟩
    simp only [IntervalLess, Bool.or_eq_false_iff, Bool.and_eq_false_iff,
      decide_eq_false_iff_not, not_lt, beq_eq_false_iff_ne, ne_eq] at h1 h2
    obtain ⟨hmin1, h1⟩ := h1
    obtain ⟨hmin2, h2⟩ := h2
    have hmin : a.min = b.min := le_antisymm hmin2 hmin1
    have hmax : a.max = b.max := by
      rcases h1 with h | h
      · exact absurd hmin h
      · rcases h2 with h' | h'
        · exact absurd hmin.symm h'
        · exact le_antisymm h h'
    cases a; cases b; simp_all
  · rintro rfl
    exact ⟨intervalLess_irrefl a, intervalLess_irrefl a⟩

theorem valid_nil : Valid [] = true := rfl

theorem valid_iff {l : ISet} : Valid l = true ↔ Ordered l ∧ AllNE l := by
  induction l with
  | nil => simp [Valid, Ordered, AllNE]
  | cons x xs ih =>
    cases xs with
    | nil => simp [Valid, Ordered, AllNE]
    | cons y ys =>
      rw [show Valid (x :: y :: ys) =
            (decide (x.min < x.max) && decide (x.max < y.min) && Valid (y :: ys)) from rfl]
      rw [Bool.and_eq_true, Bool.and_eq_true, ih]
      constructor
      · rintro ⟨⟨h1, h2⟩, ho, hne⟩
        refine ⟨List.chain'_cons.mpr ⟨by simpa using h2, ho⟩, ?_⟩
        intro z hz
        rcases List.mem_cons.mp hz with rfl | hz'
        · simpa using h1
        · exact hne z hz'
      · rintro ⟨ho, hne⟩
        rw [Ordered, List.chain'_cons] at ho
        exact ⟨⟨by simpa using hne x (List.mem_cons_self x _),
          by simpa using ho.1⟩, ho.2, fun z hz => hne z (List.mem_cons_of_mem _ hz)⟩

theorem valid_ordered {l : ISet} (h : Valid l = true) : Ordered l :=
  (valid_iff.mp h).1

theorem valid_allNE {l : ISet} (h : Valid l = true) : AllNE l :=
  (valid_iff.mp h).2

/-- In a chain `a.max < b.min` of non-empty intervals, the head's `max` is
below the `min` of every later element. -/
theorem ordered_head_lt {x : QuicInterval} {xs : ISet} (ho : Ordered (x :: xs))
    (hne : AllNE xs) : ∀ y ∈ xs, x.max < y.min := by
  induction xs generalizing x with
  | nil => simp
  | cons z rest ih =>
    rw [Ordered, List.chain'_cons] at ho
    intro y hy
    rcases List.mem_cons.mp hy with rfl | hy'
    · exact ho.1
    · have hz := hne z (List.mem_cons_self z rest)
      have hrec := ih ho.2 (fun w hw => hne w (List.mem_cons_of_mem _ hw)) y hy'
      exact lt_trans (lt_trans ho.1 hz) hrec

theorem ordered_pairwise {l : ISet} (ho : Ordered l) (hne : AllNE l) :
    l.Pairwise fun a b => a.max < b.min := by
  induction l with
  | nil => simp
  | cons x xs ih =>
    rw [List.pairwise_cons]
    have hne' : AllNE xs := fun z hz => hne z (List.mem_cons_of_mem _ hz)
    exact ⟨ordered_head_lt ho hne', ih ho.tail hne'⟩

theorem pairwise_lessP {l : ISet} (ho : Ordered l) (hne : AllNE l) :
    l.Pairwise LessP := by
  refine (ordered_pairwise ho hne).imp_of_mem ?_
  intro a b ha _hb h
  exact lessP_iff.mpr (Or.inl (lt_trans (hne a ha) h))

theorem valid_pairwise_lessP {l : ISet} (h : Valid l = true) : l.Pairwise LessP :=
  pairwise_lessP (valid_ordered h) (valid_allNE h)

theorem upperBoundIdx_le_length (l : ISet) (k : QuicInterval) :
    upperBoundIdx l k ≤ l.length := by
  induction l with
  | nil => simp [upperBoundIdx]
  | cons x xs ih =>
    rw [upperBoundIdx]
    split
    · simp
    · simpa using Nat.succ_le_succ ih

/-- Everything strictly before `upper_bound(k)` is not greater than `k`. -/
theorem upperBoundIdx_lt_spec {l : ISet} {k : QuicInterval} {j : Nat}
    (hj : j < upperBoundIdx l k) : IntervalLess k (l.getD j default) = false := by
  induction l generalizing j with
  | nil => simp [upperBoundIdx] at hj
  | cons x xs ih =>
    rw [upperBoundIdx] at hj
    split at hj
    · omega
    · cases j with
      | zero =>
        simpa using Bool.not_eq_true _ ▸ (by simpa using ‹¬IntervalLess k x = true›)
      | succ n =>
        rw [List.getD_cons_succ]
        exact ih (Nat.lt_of_succ_lt_succ hj)

/-- In a sorted index, everything at or after `upper_bound(k)` is greater
than `k`. -/
theorem upperBoundIdx_ge_spec {l : ISet} {k : QuicInterval} {j : Nat}
    (hs : l.Pairwise LessP) (h1 : upperBoundIdx l k ≤ j) (h2 : j < l.length) :
    IntervalLess k (l.getD j default) = true := by
  induction l generalizing j with
  | nil => simp at h2
  | cons x xs ih =>
    rw [upperBoundIdx] at h1
    rw [List.pairwise_cons] at hs
    split at h1
    · cases j with
      | zero => simpa using ‹IntervalLess k x = true›
      | succ n =>
        have hn : n < xs.length := by simpa using Nat.lt_of_succ_lt_succ h2
        have hmem : xs.getD n default ∈ xs := by
          rw [List.getD_eq_getElem _ _ hn]
          exact List.getElem_mem hn
        rw [List.getD_cons_succ]
        exact intervalLess_trans ‹IntervalLess k x = true› (hs.1 _ hmem)
    · cases j with
      | zero => omega
      | succ n =>
        rw [List.getD_cons_succ]
        exact ih hs.2 (Nat.le_of_succ_le_succ h1) (by simpa using Nat.lt_of_succ_lt_succ h2)

theorem lowerBoundIdx_le_length (l : ISet) (k : QuicInterval) :
    lowerBoundIdx l k ≤ l.length := by
  induction l with
  | nil => simp [lowerBoundIdx]
  | cons x xs ih =>
    rw [lowerBoundIdx]
    split
    · simpa using Nat.succ_le_succ ih
    · simp

/-- Everything strictly before `lower_bound(k)` is less than `k`. -/
theorem lowerBoundIdx_lt_spec {l : ISet} {k : QuicInterval} {j : Nat}
    (hj : j < lowerBoundIdx l k) : IntervalLess (l.getD j default) k = true := by
  induction l generalizing j with
  | nil => simp [lowerBoundIdx] at hj
  | cons x xs ih =>
    rw [lowerBoundIdx] at hj
    split at hj
    · cases j with
      | zero => simpa using ‹IntervalLess x k = true›
      | succ n =>
        rw [List.getD_cons_succ]
        exact ih (Nat.lt_of_succ_lt_succ hj)
    · omega

/-- In a sorted index, everything at or after `lower_bound(k)` is not less
than `k`. -/
theorem lowerBoundIdx_ge_spec {l : ISet} {k : QuicInterval} {j : Nat}
    (hs : l.Pairwise LessP) (h1 : lowerBoundIdx l k ≤ j) (h2 : j < l.length) :
    IntervalLess (l.getD j default) k = false := by
  induction l generalizing j with
  | nil => simp at h2
  | cons x xs ih =>
    rw [lowerBoundIdx] at h1
    rw [List.pairwise_cons] at hs
    split at h1
    · cases j with
      | zero => omega
      | succ n =>
        rw [List.getD_cons_succ]
        exact ih hs.2 (Nat.le_of_succ_le_succ h1) (by simpa using Nat.lt_of_succ_lt_succ h2)
    · cases j with
      | zero => simpa using Bool.not_eq_true _ ▸ (by simpa using ‹¬IntervalLess x k = true›)
      | succ n =>
        have hn : n < xs.length := by simpa using Nat.lt_of_succ_lt_succ h2
        have hmem : xs.getD n default ∈ xs := by
          rw [List.getD_eq_getElem _ _ hn]
          exact List.getElem_mem hn
        rw [List.getD_cons_succ]
        by_contra hcon
        rw [Bool.not_eq_false] at hcon
        exact ‹¬IntervalLess x k = true› (intervalLess_trans (hs.1 _ hmem) hcon)

theorem getD_mem {l : ISet} {j : Nat} (hj : j < l.length) : l.getD j default ∈ l := by
  rw [List.getD_eq_getElem _ _ hj]
  exact List.getElem_mem hj

theorem pairwise_getD {R : QuicInterval → QuicInterval → Prop} {l : ISet}
    (hp : l.Pairwise R) {i j : Nat} (hij : i < j) (hj : j < l.length) :
    R (l.getD i default) (l.getD j default) := by
  have hi : i < l.length := lt_trans hij hj
  rw [List.getD_eq_getElem _ _ hi, List.getD_eq_getElem _ _ hj]
  exact List.pairwise_iff_getElem.mp hp i j hi hj hij

theorem intervalLess_mk_left {p q : Int} {a : QuicInterval} :
    IntervalLess ⟨p, q⟩ a = true ↔ p < a.min ∨ (p = a.min ∧ a.max < q) :=
  intervalLess_iff

theorem intervalLess_mk_right {p q : Int} {a : QuicInterval} :
    IntervalLess a ⟨p, q⟩ = true ↔ a.min < p ∨ (a.min = p ∧ q < a.max) :=
  intervalLess_iff

/-- Both bound lookups of a stored interval's `min` land one past that
interval: `upper_bound([v,v))` and `lower_bound([v,v))` both return position
`k + 1` when `v` is the `min` of the interval stored at `k`. -/
theorem boundIdx_at_stored_min {S : ISet} {k : Nat} {v : Int}
    (hv : Valid S = true) (hk : k < S.length) (hmin : (S.getD k default).min = v) :
    upperBoundIdx S ⟨v, v⟩ = k + 1 ∧ lowerBoundIdx S ⟨v, v⟩ = k + 1 := by
  have hs : S.Pairwise LessP := valid_pairwise_lessP hv
  have hord : S.Pairwise fun a b => a.max < b.min :=
    ordered_pairwise (valid_ordered hv) (valid_allNE hv)
  have hne : (S.getD k default).min < (S.getD k default).max :=
    valid_allNE hv _ (getD_mem hk)
  have hnext : ∀ {j : Nat}, k < j → j < S.length → v < (S.getD j default).min := by
    intro j hkj hj
    have := pairwise_getD hord hkj hj
    omega
  constructor
  · have hge : k + 1 ≤ upperBoundIdx S ⟨v, v⟩ := by
      by_contra hcon
      have h1 := upperBoundIdx_ge_spec (k := ⟨v, v⟩) hs (by omega) hk
      rw [intervalLess_mk_left] at h1
      omega
    have hle : upperBoundIdx S ⟨v, v⟩ ≤ k + 1 := by
      by_contra hcon
      have hlen : k + 1 < S.length :=
        lt_of_lt_of_le (by omega) (upperBoundIdx_le_length S ⟨v, v⟩)
      have hf := upperBoundIdx_lt_spec (l := S) (k := ⟨v, v⟩) (j := k + 1) (by omega)
      have ht : IntervalLess ⟨v, v⟩ (S.getD (k + 1) default) = true :=
        intervalLess_mk_left.mpr (Or.inl (hnext (Nat.lt_succ_self k) hlen))
      rw [hf] at ht
      exact Bool.false_ne_true ht
    omega
  · have hge : k + 1 ≤ lowerBoundIdx S ⟨v, v⟩ := by
      by_contra hcon
      have h1 := lowerBoundIdx_ge_spec (k := ⟨v, v⟩) hs (by omega) hk
      have ht : IntervalLess (S.getD k default) ⟨v, v⟩ = true :=
        intervalLess_mk_right.mpr (Or.inr ⟨hmin, by omega⟩)
      rw [h1] at ht
      exact Bool.false_ne_true ht
    have hle : lowerBoundIdx S ⟨v, v⟩ ≤ k + 1 := by
      by_contra hcon
      have hlen : k + 1 < S.length :=
        lt_of_lt_of_le (by omega) (lowerBoundIdx_le_length S ⟨v, v⟩)
      have h1 := lowerBoundIdx_lt_spec (l := S) (k := ⟨v, v⟩) (j := k + 1) (by omega)
      rw [intervalLess_mk_right] at h1
      have h2 := hnext (j := k + 1) (by omega) hlen
      omega
    omega

/-- C7: for every valid set and every value `v` equal to the `min` of the
interval stored at position `k`, `LowerBound(v)` returns the position `k` of
that interval, while `UpperBound(v)` returns `k + 1`, the position of the
first interval whose `min` exceeds `v`. -/
theorem C7_lower_upper_bound_at_min {S : ISet} {k : Nat} {v : Int}
    (hv : Valid S = true) (hk : k < S.length) (hmin : (S.getD k default).min = v) :
    LowerBound S v = k ∧ UpperBound S v = k + 1 := by
  obtain ⟨hub, hlb⟩ := boundIdx_at_stored_min hv hk hmin
  refine ⟨?_, hub⟩
  have hne : (S.getD k default).min < (S.getD k default).max :=
    valid_allNE hv _ (getD_mem hk)
  have hcv : (S.getD k default).ContainsValue v = true := by
    rw [ContainsValue]
    simp only [Bool.and_eq_true, decide_eq_true_eq]
    omega
  show (let it := lowerBoundIdx S ⟨v, v⟩;
        if it = 0 then it
        else if (S.getD (it - 1) default).ContainsValue v then it - 1 else it) = k
  rw [hlb]
  rw [if_neg (Nat.succ_ne_zero k), Nat.add_sub_cancel, if_pos hcv]

theorem C7_lower_upper_bound_at_min_witness :
    LowerBound [⟨10, 20⟩, ⟨30, 40⟩] 10 = 0 ∧ UpperBound [⟨10, 20⟩, ⟨30, 40⟩] 10 = 1 :=
  C7_lower_upper_bound_at_min (by decide) (by decide) (by decide)

/-- C2: the internal ordering comparator is exactly: `a` precedes `b` iff
`a.min < b.min`, or `a.min == b.min` and `a.max > b.max` (ascending `min`,
ties broken by descending `max`); in particular every non-empty interval `s`
precedes the empty probe interval `[v, v)` when `s.min == v`. -/
theorem C2_comparator_exact :
    (∀ a b : QuicInterval,
        IntervalLess a b = true ↔ a.min < b.min ∨ (a.min = b.min ∧ a.max > b.max)) ∧
    (∀ (s : QuicInterval) (v : Int),
        s.Empty = false → s.min = v → IntervalLess s ⟨v, v⟩ = true) := by
  refine ⟨fun a b => intervalLess_iff, fun s v hne hv => ?_⟩
  rw [intervalLess_iff]
  exact Or.inr ⟨hv, by simpa [hv] using not_empty_iff.mp hne⟩

theorem C2_comparator_exact_witness :
    IntervalLess ⟨3, 5⟩ ⟨3, 3⟩ = true :=
  C2_comparator_exact.2 ⟨3, 5⟩ 3 (by decide) rfl

/-- C3: `Contains` on an empty interval argument always returns `false`, even
when the set is non-empty and `i.min` lies inside a stored interval; and
`Contains` on an empty `QuicIntervalSet` argument always returns `false`. -/
theorem C3_contains_empty_false :
    (∀ (S : ISet) (i : QuicInterval), i.Empty = true → ContainsInterval S i = false) ∧
    (∀ S : ISet, ContainsSet S [] = false) := by
  constructor
  · intro S i hi
    unfold ContainsInterval
    simp only []
    split
    · rfl
    · simp [QuicInterval.Contains, hi]
  · intro S
    unfold ContainsSet
    simp [SpanningInterval, QuicInterval.Contains, QuicInterval.Empty]

theorem C3_contains_empty_false_witness :
    ContainsInterval [⟨10, 20⟩] ⟨15, 15⟩ = false :=
  C3_contains_empty_false.1 [⟨10, 20⟩] ⟨15, 15⟩ (by decide)

/-- C8: starting from the empty set, `Add([10,20))`, `Add([30,40))`,
`Add([15,35))` yields exactly `{[10,40)}`; afterwards `Size` is `1`,
`Contains([10,40))` is `true` and `Contains([10,41))` is `false`. -/
theorem C8_add_scenario :
    Add (Add (Add [] ⟨10, 20⟩) ⟨30, 40⟩) ⟨15, 35⟩ = [⟨10, 40⟩] ∧
    Size (Add (Add (Add [] ⟨10, 20⟩) ⟨30, 40⟩) ⟨15, 35⟩) = 1 ∧
    ContainsInterval (Add (Add (Add [] ⟨10, 20⟩) ⟨30, 40⟩) ⟨15, 35⟩) ⟨10, 40⟩ = true ∧
    ContainsInterval (Add (Add (Add [] ⟨10, 20⟩) ⟨30, 40⟩) ⟨15, 35⟩) ⟨10, 41⟩ = false := by
  decide

/-- C10: `Intersection` clears the set entirely whenever the other set is
empty, the set itself is empty, either spanning interval is empty, or the two
spanning intervals do not intersect. -/
theorem C10_intersection_empty_clears :
    (∀ S : ISet, Intersection S [] = []) ∧
    (∀ S : ISet, Intersection [] S = []) ∧
    (∀ S T : ISet,
        (SpanningInterval S).Empty = true ∨ (SpanningInterval T).Empty = true ∨
          (SpanningInterval S).Intersects (SpanningInterval T) = false →
        Intersection S T = []) := by
  have key : ∀ S T : ISet,
      (SpanningInterval S).Empty = true ∨ (SpanningInterval T).Empty = true ∨
        (SpanningInterval S).Intersects (SpanningInterval T) = false →
      Intersection S T = [] := by
    intro S T h
    have hfalse : (SpanningInterval S).Intersects (SpanningInterval T) = false := by
      rcases h with h | h | h
      · simp [QuicInterval.Intersects, h]
      · simp [QuicInterval.Intersects, h]
      · exact h
    unfold Intersection
    simp [hfalse]
  refine ⟨fun S => key S [] ?_, fun S => key [] S ?_, key⟩
  · exact Or.inr (Or.inl (by simp [SpanningInterval, QuicInterval.Empty]))
  · exact Or.inl (by simp [SpanningInterval, QuicInterval.Empty])

theorem C10_intersection_empty_clears_witness :
    Intersection [⟨0, 5⟩] [⟨10, 12⟩] = [] :=
  C10_intersection_empty_clears.2.2 [⟨0, 5⟩] [⟨10, 12⟩] (Or.inr (Or.inr (by decide)))

theorem intervalLess_asymm {a b : QuicInterval} (h : IntervalLess a b = true) :
    IntervalLess b a = false := by
  by_contra hcon
  rw [Bool.not_eq_false] at hcon
  have h2 := intervalLess_trans h hcon
  rw [intervalLess_irrefl] at h2
  exact Bool.false_ne_true h2

theorem setInsert_cons (x : QuicInterval) (xs : ISet) (a : QuicInterval) :
    setInsert (x :: xs) a =
      if IntervalLess a x then (a :: x :: xs, 0, true)
      else if IntervalLess x a then
        (x :: (setInsert xs a).1, (setInsert xs a).2.1 + 1, (setInsert xs a).2.2)
      else (x :: xs, 0, false) := by
  rw [setInsert]

/-- When insertion is refused, an element with the same endpoints is already
present and the contents are unchanged. -/
theorem setInsert_false_spec {l : ISet} {a : QuicInterval}
    (h : (setInsert l a).2.2 = false) : (setInsert l a).1 = l ∧ a ∈ l := by
  induction l with
  | nil => simp [setInsert] at h
  | cons x xs ih =>
    by_cases h1 : IntervalLess a x = true
    · rw [setInsert_cons, if_pos h1] at h
      simp at h
    · by_cases h2 : IntervalLess x a = true
      · rw [setInsert_cons, if_neg h1, if_pos h2] at h ⊢
        obtain ⟨hl, hm⟩ := ih h
        exact ⟨by simp [hl], List.mem_cons_of_mem _ hm⟩
      · rw [setInsert_cons, if_neg h1, if_neg h2]
        have hax : a = x := equiv_iff.mp
          ⟨Bool.not_eq_true _ ▸ h1, Bool.not_eq_true _ ▸ h2⟩
        exact ⟨rfl, hax ▸ List.mem_cons_self a _⟩

/-- When insertion succeeds on a sorted index, the new contents are the old
ones with `a` placed at its comparator position. -/
theorem setInsert_true_spec {l : ISet} {a : QuicInterval} (hs : l.Pairwise LessP)
    (h : (setInsert l a).2.2 = true) :
    ∃ pre suf, l = pre ++ suf ∧ (setInsert l a).1 = pre ++ a :: suf ∧
      (setInsert l a).2.1 = pre.length ∧
      (∀ x ∈ pre, LessP x a) ∧ ∀ y ∈ suf, LessP a y := by
  induction l with
  | nil =>
    refine ⟨[], [], rfl, rfl, rfl, by simp, by simp⟩
  | cons x xs ih =>
    rw [List.pairwise_cons] at hs
    by_cases h1 : IntervalLess a x = true
    · refine ⟨[], x :: xs, rfl, ?_, ?_, by simp, ?_⟩
      · rw [setInsert_cons, if_pos h1]
        rfl
      · rw [setInsert_cons, if_pos h1]
        rfl
      · intro y hy
        rcases List.mem_cons.mp hy with rfl | hy'
        · exact h1
        · exact intervalLess_trans h1 (hs.1 y hy')
    · by_cases h2 : IntervalLess x a = true
      · rw [setInsert_cons, if_neg h1, if_pos h2] at h
        obtain ⟨pre', suf', hl, h1', h2', h3', h4'⟩ := ih hs.2 h
        refine ⟨x :: pre', suf', by simp [hl], ?_, ?_, ?_, h4'⟩
        · rw [setInsert_cons, if_neg h1, if_pos h2]
          simp [h1']
        · rw [setInsert_cons, if_neg h1, if_pos h2]
          simp [h2']
        · intro z hz
          rcases List.mem_cons.mp hz with rfl | hz'
          · exact h2
          · exact h3' z hz'
      · rw [setInsert_cons, if_neg h1, if_neg h2] at h
        simp at h

/-- Inserting into a set where everything is less than `a` appends `a` at the
back. -/
theorem setInsert_all_less {l : ISet} {a : QuicInterval}
    (hall : ∀ x ∈ l, LessP x a) :
    setInsert l a = (l ++ [a], l.length, true) := by
  induction l with
  | nil => rfl
  | cons x xs ih =>
    have hx : IntervalLess x a = true := hall x (List.mem_cons_self x xs)
    rw [setInsert_cons, if_neg (by simp [intervalLess_asymm hx]), if_pos hx,
      ih fun z hz => hall z (List.mem_cons_of_mem _ hz)]
    rfl

/-- Inserting an element already present in a sorted index is refused. -/
theorem setInsert_mem {l : ISet} {a : QuicInterval} (hs : l.Pairwise LessP)
    (hm : a ∈ l) : (setInsert l a).1 = l ∧ (setInsert l a).2.2 = false := by
  induction l with
  | nil => simp at hm
  | cons x xs ih =>
    rw [List.pairwise_cons] at hs
    rcases List.mem_cons.mp hm with rfl | hm'
    · rw [setInsert_cons, if_neg (by simp [intervalLess_irrefl]),
        if_neg (by simp [intervalLess_irrefl])]
      exact ⟨rfl, rfl⟩
    · have hx : IntervalLess x a = true := hs.1 a hm'
      obtain ⟨ih1, ih2⟩ := ih hs.2 hm'
      rw [setInsert_cons, if_neg (by simp [intervalLess_asymm hx]), if_pos hx]
      exact ⟨by simp [ih1], by simpa using ih2⟩

/-- `upper_bound(k)` is `end()` as soon as the last element of a sorted index
is not greater than `k`. -/
theorem upperBoundIdx_eq_length {l : ISet} {k : QuicInterval}
    (hs : l.Pairwise LessP) (hne : l ≠ [])
    (h : IntervalLess k (l.getD (l.length - 1) default) = false) :
    upperBoundIdx l k = l.length := by
  have hle := upperBoundIdx_le_length l k
  by_contra hcon
  have hlen : 0 < l.length := List.length_pos.mpr hne
  have := upperBoundIdx_ge_spec (k := k) hs (j := l.length - 1) (by omega) (by omega)
  rw [h] at this
  exact Bool.false_ne_true this

theorem compactGo_ne_nil (p : QuicInterval) (l : ISet) : compactGo p l ≠ [] := by
  induction l generalizing p with
  | nil => simp [compactGo]
  | cons y rest ih =>
    rw [compactGo]
    split
    · exact ih _
    · simp

/-- The head of a compacted range keeps the `min` of the range's first
element. -/
theorem compactGo_headI_min (p : QuicInterval) (l : ISet) :
    (compactGo p l).headI.min = p.min := by
  induction l generalizing p with
  | nil => rfl
  | cons y rest ih =>
    rw [compactGo]
    split
    · exact ih _
    · rfl

/-- Compaction never increases the largest `max` of the range. -/
theorem compactGo_max_lt {H : Int} {p : QuicInterval} {l : ISet}
    (hall : ∀ x ∈ p :: l, x.max < H) : ∀ z ∈ compactGo p l, z.max < H := by
  induction l generalizing p with
  | nil =>
    intro z hz
    rw [compactGo] at hz
    rcases List.mem_singleton.mp hz with rfl
    exact hall z (List.mem_cons_self z [])
  | cons y rest ih =>
    intro z hz
    rw [compactGo] at hz
    split at hz
    · refine ih ?_ z hz
      intro w hw
      rcases List.mem_cons.mp hw with rfl | hw'
      · have h1 := hall p (List.mem_cons_self p _)
        have h2 := hall y (List.mem_cons_of_mem _ (List.mem_cons_self y rest))
        simp only [max_lt_iff]
        exact ⟨h1, h2⟩
      · exact hall w (List.mem_cons_of_mem _ (List.mem_cons_of_mem _ hw'))
    · rcases List.mem_cons.mp hz with rfl | hz'
      · exact hall z (List.mem_cons_self z _)
      · refine ih ?_ z hz'
        intro w hw
        exact hall w (List.mem_cons_of_mem _ hw)

/-- Compacting a comparator-sorted range of non-empty intervals restores the
full invariant on that range. -/
theorem compactGo_valid {p : QuicInterval} {l : ISet}
    (hs : (p :: l).Pairwise LessP) (hp : p.min < p.max) (hne : AllNE l) :
    Ordered (compactGo p l) ∧ AllNE (compactGo p l) := by
  induction l generalizing p with
  | nil =>
    refine ⟨List.chain'_singleton p, ?_⟩
    intro x hx
    rcases List.mem_singleton.mp hx with rfl
    exact hp
  | cons y rest ih =>
    rw [List.pairwise_cons] at hs
    rw [compactGo]
    split
    · refine ih ?_ (by simpa using lt_of_lt_of_le hp (le_max_left _ _)) ?_
      · rw [List.pairwise_cons]
        refine ⟨?_, (List.pairwise_cons.mp hs.2).2⟩
        intro z hz
        have hpz : LessP p z := hs.1 z (List.mem_cons_of_mem _ hz)
        have hyz : LessP y z := (List.pairwise_cons.mp hs.2).1 z hz
        rw [lessP_iff] at hpz hyz ⊢
        rcases hpz with h | ⟨h, h'⟩
        · exact Or.inl h
        · exact Or.inr ⟨h, lt_of_lt_of_le h' (le_max_left _ _)⟩
      · exact fun z hz => hne z (List.mem_cons_of_mem _ hz)
    · have hrec := ih hs.2 (hne y (List.mem_cons_self y rest))
        (fun z hz => hne z (List.mem_cons_of_mem _ hz))
      obtain ⟨q, t, hqt⟩ : ∃ q t, compactGo y rest = q :: t := by
        cases hc : compactGo y rest with
        | nil => exact absurd hc (compactGo_ne_nil y rest)
        | cons q t => exact ⟨q, t, rfl⟩
      have hqmin : q.min = y.min := by
        have hh := compactGo_headI_min y rest
        rw [hqt] at hh
        exact hh
      refine ⟨?_, ?_⟩
      · rw [Ordered, hqt, List.chain'_cons]
        constructor
        · rw [hqmin]; omega
        · have hh := hrec.1
          rwa [Ordered, hqt] at hh
      · intro z hz
        rcases List.mem_cons.mp hz with rfl | hz'
        · exact hp
        · exact hrec.2 z hz'

/-- The segment form of `Compact` on an explicit three-part split. -/
theorem compactSeg_decomp (pre seg post : ISet) :
    compactSeg (pre ++ seg ++ post) pre.length (pre.length + seg.length) =
      pre ++ compactList seg ++ post := by
  have e1 : (pre ++ seg ++ post).take pre.length = pre := by
    rw [List.append_assoc]
    exact List.take_left pre _
  have e2 : (pre ++ seg ++ post).drop pre.length = seg ++ post := by
    rw [List.append_assoc]
    exact List.drop_left pre _
  have e3 : (pre ++ seg ++ post).drop (pre.length + seg.length) = post :=
    List.drop_left' (by simp)
  rw [compactSeg, e1, e2, e3, Nat.add_sub_cancel_left, List.take_left]

/-- Any sublist of a valid set keeps the chain, non-emptiness, and sorting
facts. -/
theorem valid_sub {l s : ISet} (hv : Valid l = true) (hs : s.Sublist l) :
    (s.Chain' fun a b => a.max < b.min) ∧ AllNE s ∧ s.Pairwise LessP :=
  ⟨((ordered_pairwise (valid_ordered hv) (valid_allNE hv)).sublist hs).chain',
   fun x hx => valid_allNE hv x (hs.subset hx),
   (valid_pairwise_lessP hv).sublist hs⟩

/-- Gluing lemma for `Add`/`Union`: a compacted sorted segment placed between
two valid stretches, with the proper boundary gaps, yields a valid set. -/
theorem assembled_valid {P Q : ISet} {s0 : QuicInterval} {st : ISet}
    (hsegS : (s0 :: st).Pairwise LessP) (hsegNE : AllNE (s0 :: st))
    (hP : P.Chain' fun a b => a.max < b.min)
    (hQ : Q.Chain' fun a b => a.max < b.min)
    (hPNE : AllNE P) (hQNE : AllNE Q)
    (hleft : ∀ x ∈ P.getLast?, x.max < s0.min)
    (hright : ∀ q ∈ Q.head?, ∀ x ∈ s0 :: st, x.max < q.min) :
    Valid (P ++ compactGo s0 st ++ Q) = true := by
  have hs0 : s0.min < s0.max := hsegNE s0 (List.mem_cons_self _ _)
  have hstNE : AllNE st := fun z hz => hsegNE z (List.mem_cons_of_mem _ hz)
  have hcv := compactGo_valid hsegS hs0 hstNE
  obtain ⟨q, t, hqt⟩ : ∃ q t, compactGo s0 st = q :: t := by
    cases hc : compactGo s0 st with
    | nil => exact absurd hc (compactGo_ne_nil s0 st)
    | cons q t => exact ⟨q, t, rfl⟩
  have hqmin : q.min = s0.min := by
    have hh := compactGo_headI_min s0 st
    rw [hqt] at hh
    exact hh
  rw [valid_iff]
  constructor
  · rw [Ordered, List.append_assoc, List.chain'_append]
    refine ⟨hP, ?_, ?_⟩
    · rw [List.chain'_append]
      refine ⟨hcv.1, hQ, ?_⟩
      intro x hx y hy
      exact compactGo_max_lt (hright y hy) x (List.mem_of_mem_getLast? hx)
    · intro x hx y hy
      rw [hqt, List.cons_append, List.head?_cons, Option.mem_def,
        Option.some_inj] at hy
      subst hy
      rw [hqmin]
      exact hleft x hx
  · intro z hz
    rw [List.append_assoc] at hz
    rcases List.mem_append.mp hz with h | h
    · exact hPNE z h
    · rcases List.mem_append.mp h with h' | h'
      · exact hcv.2 z h'
      · exact hQNE z h'

/-- `Add` preserves the `Valid` invariant. -/
theorem add_valid {l : ISet} {i : QuicInterval} (hv : Valid l = true) :
    Valid (Add l i) = true := by
  by_cases hemp : i.Empty = true
  · rw [Add, if_pos hemp]
    exact hv
  · have hine : i.min < i.max := not_empty_iff.mp (by simpa using hemp)
    by_cases hins : (setInsert l i).2.2 = true
    · rw [Add, if_neg hemp, if_neg (by simp [hins])]
      obtain ⟨pre, suf, hl, h1, h2, h3, h4⟩ :=
        setInsert_true_spec (valid_pairwise_lessP hv) hins
      set L1 := (setInsert l i).1 with hL1def
      set e := upperBoundIdx L1 ⟨i.max, i.max⟩ with hedef
      have hsufSub : suf.Sublist l := hl ▸ List.sublist_append_right pre suf
      have hpreSub : pre.Sublist l := hl ▸ List.sublist_append_left pre suf
      have hl1s : L1.Pairwise LessP := by
        rw [h1, List.pairwise_append]
        have hps := valid_pairwise_lessP hv
        rw [hl, List.pairwise_append] at hps
        refine ⟨hps.1, List.pairwise_cons.mpr ⟨h4, hps.2.1⟩, ?_⟩
        intro a ha b hb
        rcases List.mem_cons.mp hb with rfl | hb'
        · exact h3 a ha
        · exact hps.2.2 a ha b hb'
      have hl1ne : AllNE L1 := by
        intro z hz
        rw [h1] at hz
        rcases List.mem_append.mp hz with h | h
        · exact valid_allNE hv z (hpreSub.subset h)
        · rcases List.mem_cons.mp h with rfl | h'
          · exact hine
          · exact valid_allNE hv z (hsufSub.subset h')
      have hlen1 : L1.length = pre.length + suf.length + 1 := by
        rw [h1]
        simp
        omega
      have hele : e ≤ L1.length := upperBoundIdx_le_length _ _
      have hgetD_idx : L1.getD pre.length default = i := by
        rw [h1, List.getD_append_right _ _ _ _ le_rfl, Nat.sub_self, List.getD_cons_zero]
      have hegt : pre.length + 1 ≤ e := by
        by_contra hcon
        have hsp := upperBoundIdx_ge_spec (k := ⟨i.max, i.max⟩) hl1s
          (j := pre.length) (by omega) (by omega)
        rw [hgetD_idx, intervalLess_mk_left] at hsp
        omega
      set m := e - pre.length - 1 with hmdef
      have hm_le : m ≤ suf.length := by omega
      have he_eq : e = pre.length + 1 + m := by omega
      have hlent : (suf.take m).length = m := by
        rw [List.length_take]
        omega
      have hqbound : e < L1.length → i.max < (L1.getD e default).min := by
        intro hq
        have hqne := hl1ne _ (getD_mem hq)
        have hsp := upperBoundIdx_ge_spec (k := ⟨i.max, i.max⟩) hl1s (j := e) le_rfl hq
        rw [intervalLess_mk_left] at hsp
        omega
      have hsufP : suf.Pairwise fun a b => a.max < b.min :=
        ((ordered_pairwise (valid_ordered hv) (valid_allNE hv)).sublist hsufSub)
      have hsufQ := valid_sub hv ((List.drop_sublist m suf).trans hsufSub)
      have hcross_suf : ∀ x ∈ suf.take m, ∀ y ∈ suf.drop m, x.max < y.min := by
        have hp2 := hsufP
        rw [show suf = suf.take m ++ suf.drop m from (List.take_append_drop m suf).symm,
          List.pairwise_append] at hp2
        exact fun x hx y hy => hp2.2.2 x (by simpa using hx) y (by simpa using hy)
      have hcross_pre : ∀ x ∈ pre, ∀ y ∈ suf, x.max < y.min := by
        have hp := ordered_pairwise (valid_ordered hv) (valid_allNE hv)
        rw [hl, List.pairwise_append] at hp
        exact hp.2.2
      rcases List.eq_nil_or_concat pre with rfl | ⟨pre2, pl, rfl⟩
      · -- insertion at the front: compact from the inserted interval itself
        rw [h2]
        rw [show (if List.length ([] : ISet) = 0 then 0
              else List.length ([] : ISet) - 1) = 0 from rfl]
        simp only [List.length_nil] at he_eq
        have hL1eq : L1 = [] ++ (i :: suf.take m) ++ suf.drop m := by
          rw [h1]
          simp [List.take_append_drop]
        have hfin : compactSeg L1 0 e =
            [] ++ compactList (i :: suf.take m) ++ suf.drop m := by
          have hd := compactSeg_decomp [] (i :: suf.take m) (suf.drop m)
          rw [← hL1eq] at hd
          have hlen_seg : (i :: suf.take m).length = e := by
            simp [hlent]
            omega
          rw [show List.length ([] : ISet) = 0 from rfl, Nat.zero_add, hlen_seg] at hd
          exact hd
        rw [hfin]
        show Valid ([] ++ compactGo i (suf.take m) ++ suf.drop m) = true
        have hL1cons : L1 = i :: suf := by
          rw [h1]
          rfl
        refine assembled_valid ?_ ?_ List.chain'_nil hsufQ.1 ?_ hsufQ.2.1 ?_ ?_
        · exact List.Pairwise.sublist ((List.take_sublist m suf).cons₂ i) (hL1cons ▸ hl1s)
        · intro z hz
          rcases List.mem_cons.mp hz with rfl | hz'
          · exact hine
          · exact valid_allNE hv z (hsufSub.subset ((List.take_sublist m suf).subset hz'))
        · intro x hx
          simp at hx
        · intro x hx
          simp at hx
        · intro q' hq' x hx
          obtain ⟨q0, t0, hdrop⟩ : ∃ q0 t0, suf.drop m = q0 :: t0 := by
            cases hd : suf.drop m with
            | nil =>
              rw [hd] at hq'
              simp at hq'
            | cons q0 t0 => exact ⟨_, _, rfl⟩
          rw [hdrop, List.head?_cons, Option.mem_def, Option.some_inj] at hq'
          subst hq'
          have hdlen : 0 < (suf.drop m).length := by
            rw [hdrop]
            simp
          rw [List.length_drop] at hdlen
          have helt : e < L1.length := by omega
          have hq0getD : L1.getD e default = q0 := by
            rw [(show L1 = (i :: suf.take m) ++ suf.drop m from by
                  rw [hL1cons]
                  simpa using (List.take_append_drop m suf).symm),
              List.getD_append_right _ _ _ _ (by simp [hlent]; omega), hdrop]
            have : e - (i :: suf.take m).length = 0 := by
              simp [hlent]
              omega
            rw [this, List.getD_cons_zero]
          have hq0mem : q0 ∈ suf := (List.drop_sublist m suf).subset (by
            rw [hdrop]
            exact List.mem_cons_self _ _)
          rcases List.mem_cons.mp hx with rfl | hx'
          · have := hqbound helt
            rwa [hq0getD] at this
          · exact hcross_suf x hx' q0 (by rw [hdrop]; exact List.mem_cons_self _ _)
      · -- insertion after a non-empty prefix: compact from the left neighbour
        simp only [List.concat_eq_append] at h1 h2 h3 hl hpreSub hcross_pre
        simp only [List.concat_eq_append] at he_eq hegt hgetD_idx hlen1
        rw [h2]
        have hlenpre : (pre2 ++ [pl]).length = pre2.length + 1 := by simp
        rw [hlenpre]
        simp only [List.length_append, List.length_cons, List.length_nil] at he_eq hlen1
        rw [if_neg (Nat.succ_ne_zero _), Nat.add_sub_cancel]
        have hL1eq : L1 = pre2 ++ (pl :: i :: suf.take m) ++ suf.drop m := by
          rw [h1]
          simp [List.take_append_drop]
        have hfin : compactSeg L1 pre2.length e =
            pre2 ++ compactList (pl :: i :: suf.take m) ++ suf.drop m := by
          have hd := compactSeg_decomp pre2 (pl :: i :: suf.take m) (suf.drop m)
          rw [← hL1eq] at hd
          have hlen_seg : pre2.length + (pl :: i :: suf.take m).length = e := by
            simp [hlent]
            omega
          rw [hlen_seg] at hd
          exact hd
        rw [hfin]
        show Valid (pre2 ++ compactGo pl (i :: suf.take m) ++ suf.drop m) = true
        have hplmem : pl ∈ pre2 ++ [pl] := by simp
        have hpre2Sub : pre2.Sublist l :=
          (List.sublist_append_left pre2 [pl]).trans hpreSub
        have hsegSub : (pl :: i :: suf.take m).Sublist L1 := by
          rw [hL1eq, List.append_assoc]
          exact (List.sublist_append_left _ _).trans (List.sublist_append_right pre2 _)
        refine assembled_valid (hl1s.sublist hsegSub) ?_ (valid_sub hv hpre2Sub).1
          hsufQ.1 (valid_sub hv hpre2Sub).2.1 hsufQ.2.1 ?_ ?_
        · intro z hz
          exact hl1ne z (hsegSub.subset hz)
        · intro x hx
          have hxmem : x ∈ pre2 := List.mem_of_mem_getLast? hx
          have hp := ordered_pairwise (valid_ordered hv) (valid_allNE hv)
          have hppre := hp.sublist hpreSub
          rw [List.pairwise_append] at hppre
          exact hppre.2.2 x hxmem pl (by simp)
        · intro q' hq' x hx
          obtain ⟨q0, t0, hdrop⟩ : ∃ q0 t0, suf.drop m = q0 :: t0 := by
            cases hd : suf.drop m with
            | nil =>
              rw [hd] at hq'
              simp at hq'
            | cons q0 t0 => exact ⟨_, _, rfl⟩
          rw [hdrop, List.head?_cons, Option.mem_def, Option.some_inj] at hq'
          subst hq'
          have hdlen : 0 < (suf.drop m).length := by
            rw [hdrop]
            simp
          rw [List.length_drop] at hdlen
          have helt : e < L1.length := by omega
          have hq0getD : L1.getD e default = q0 := by
            rw [(show L1 = (pre2 ++ pl :: i :: suf.take m) ++ suf.drop m from by
                  rw [hL1eq]),
              List.getD_append_right _ _ _ _ (by simp [hlent] <;> omega), hdrop]
            have hz : e - (pre2 ++ pl :: i :: suf.take m).length = 0 := by
              simp [hlent]
              omega
            rw [hz, List.getD_cons_zero]
          have hq0mem : q0 ∈ suf := (List.drop_sublist m suf).subset (by
            rw [hdrop]
            exact List.mem_cons_self _ _)
          rcases List.mem_cons.mp hx with rfl | hx'
          · exact hcross_pre x hplmem q0 hq0mem
          · rcases List.mem_cons.mp hx' with rfl | hx''
            · have := hqbound helt
              rwa [hq0getD] at this
            · exact hcross_suf x hx'' q0 (by rw [hdrop]; exact List.mem_cons_self _ _)
    · have hf : (setInsert l i).2.2 = false := by simpa using hins
      rw [Add, if_neg hemp, if_pos (by simp [hf])]
      exact hv

/-- Insertion preserves the comparator-sortedness of the index. -/
theorem setInsert_sorted {l : ISet} {a : QuicInterval} (hs : l.Pairwise LessP) :
    (setInsert l a).1.Pairwise LessP := by
  by_cases hins : (setInsert l a).2.2 = true
  · obtain ⟨pre, suf, hl, h1, _h2, h3, h4⟩ := setInsert_true_spec hs hins
    rw [h1, List.pairwise_append]
    rw [hl, List.pairwise_append] at hs
    refine ⟨hs.1, List.pairwise_cons.mpr ⟨h4, hs.2.1⟩, ?_⟩
    intro x hx b hb
    rcases List.mem_cons.mp hb with rfl | hb'
    · exact h3 x hx
    · exact hs.2.2 x hx b hb'
  · rw [(setInsert_false_spec (by simpa using hins)).1]
    exact hs

theorem setInsert_subset {l : ISet} {a : QuicInterval} :
    ∀ z ∈ (setInsert l a).1, z = a ∨ z ∈ l := by
  induction l with
  | nil =>
    intro z hz
    rcases List.mem_singleton.mp hz with rfl
    exact Or.inl rfl
  | cons x xs ih =>
    intro z hz
    by_cases h1 : IntervalLess a x = true
    · rw [setInsert_cons, if_pos h1] at hz
      rcases List.mem_cons.mp hz with rfl | hz'
      · exact Or.inl rfl
      · exact Or.inr hz'
    · by_cases h2 : IntervalLess x a = true
      · rw [setInsert_cons, if_neg h1, if_pos h2] at hz
        rcases List.mem_cons.mp hz with rfl | hz'
        · exact Or.inr (List.mem_cons_self _ _)
        · rcases ih z hz' with h | h
          · exact Or.inl h
          · exact Or.inr (List.mem_cons_of_mem _ h)
      · rw [setInsert_cons, if_neg h1, if_neg h2] at hz
        exact Or.inr hz

theorem setInsertAll_sorted {b a : ISet} (hs : a.Pairwise LessP) :
    (setInsertAll a b).Pairwise LessP := by
  induction b generalizing a with
  | nil => exact hs
  | cons y ys ih => exact ih (setInsert_sorted hs)

theorem setInsertAll_subset {b a : ISet} :
    ∀ z ∈ setInsertAll a b, z ∈ a ∨ z ∈ b := by
  induction b generalizing a with
  | nil => exact fun z hz => Or.inl hz
  | cons y ys ih =>
    intro z hz
    rcases ih z hz with h | h
    · rcases setInsert_subset z h with rfl | h'
      · exact Or.inr (List.mem_cons_self _ _)
      · exact Or.inl h'
    · exact Or.inr (List.mem_cons_of_mem _ h)

theorem compactSeg_full (L : ISet) : compactSeg L 0 L.length = compactList L := by
  rw [compactSeg]
  simp

/-- Compacting a whole comparator-sorted index of non-empty intervals yields
a valid set. -/
theorem compactList_valid {L : ISet} (hs : L.Pairwise LessP) (hne : AllNE L) :
    Valid (compactList L) = true := by
  cases L with
  | nil => rfl
  | cons x xs =>
    rw [show compactList (x :: xs) = compactGo x xs from rfl, valid_iff]
    exact compactGo_valid hs (hne x (List.mem_cons_self _ _))
      (fun z hz => hne z (List.mem_cons_of_mem _ hz))

/-- `Union` preserves the `Valid` invariant. -/
theorem union_valid {a b : ISet} (ha : Valid a = true) (hb : Valid b = true) :
    Valid (Union a b) = true := by
  rw [Union]
  rw [compactSeg_full]
  refine compactList_valid (setInsertAll_sorted (valid_pairwise_lessP ha)) ?_
  intro z hz
  rcases setInsertAll_subset z hz with h | h
  · exact valid_allNE ha z h
  · exact valid_allNE hb z h

/-- Insertion between a smaller prefix and a larger suffix lands exactly in
between. -/
theorem setInsert_between {pre suf : ISet} {a : QuicInterval}
    (hpre : ∀ x ∈ pre, LessP x a) (hsuf : ∀ y ∈ suf, LessP a y) :
    setInsert (pre ++ suf) a = (pre ++ a :: suf, pre.length, true) := by
  induction pre with
  | nil =>
    cases suf with
    | nil => rfl
    | cons y ys =>
      have hy : IntervalLess a y = true := hsuf y (List.mem_cons_self _ _)
      rw [List.nil_append, setInsert_cons, if_pos hy]
      rfl
  | cons x pre' ih =>
    have hx : IntervalLess x a = true := hpre x (List.mem_cons_self _ _)
    rw [List.cons_append, setInsert_cons, if_neg (by simp [intervalLess_asymm hx]),
      if_pos hx, ih fun z hz => hpre z (List.mem_cons_of_mem _ hz)]
    rfl

/-- The probe `[i.max, i.max)` never sorts before the non-empty interval `i`
itself. -/
theorem probe_not_less_self {i : QuicInterval} (hne : i.min < i.max) :
    IntervalLess ⟨i.max, i.max⟩ i = false := by
  by_contra hcon
  rw [Bool.not_eq_false, intervalLess_mk_left] at hcon
  omega

/-- `Add` when the new interval sorts after every stored one: the compacted
range is the last stored interval followed by the new one. -/
theorem add_to_last {init : ISet} {L i : QuicInterval}
    (hv : Valid (init ++ [L]) = true) (hne : i.min < i.max)
    (hall : ∀ x ∈ init, LessP x i) (hLi : LessP L i) :
    Add (init ++ [L]) i = init ++ compactGo L [i] := by
  have hemp : ¬(i.Empty = true) := by
    rw [empty_iff]
    omega
  have hall' : ∀ x ∈ init ++ [L], LessP x i := by
    intro x hx
    rcases List.mem_append.mp hx with h | h
    · exact hall x h
    · rcases List.mem_singleton.mp h with rfl
      exact hLi
  have hins := setInsert_all_less hall'
  have hl1 : (setInsert (init ++ [L]) i).1 = init ++ [L, i] := by
    rw [hins]
    simp
  have hl1s : (setInsert (init ++ [L]) i).1.Pairwise LessP :=
    setInsert_sorted (valid_pairwise_lessP hv)
  have hlen : (init ++ [L, i]).length = init.length + 2 := by simp
  have he : upperBoundIdx (setInsert (init ++ [L]) i).1 ⟨i.max, i.max⟩ =
      init.length + 2 := by
    rw [hl1] at hl1s ⊢
    have hlast : (init ++ [L, i]).getD ((init ++ [L, i]).length - 1) default = i := by
      rw [hlen, List.getD_append_right _ _ _ _ (by simp)]
      rw [show init.length + 2 - 1 - init.length = 1 from by omega]
      rfl
    rw [upperBoundIdx_eq_length hl1s (by simp)
      (by rw [hlast]; exact probe_not_less_self hne), hlen]
  rw [Add, if_neg hemp, hins]
  rw [show ((init ++ [L] ++ [i], (init ++ [L]).length, true).2.2 : Bool) = true from rfl]
  rw [show (!true) = false from rfl, if_neg (by simp)]
  have hidx : (init ++ [L] ++ [i], (init ++ [L]).length, true).2.1 = init.length + 1 := by
    simp
  rw [hidx]
  rw [if_neg (Nat.succ_ne_zero _), Nat.add_sub_cancel]
  have harg : (init ++ [L] ++ [i], (init ++ [L]).length, true).1 = init ++ [L, i] := by
    simp
  rw [harg]
  have he2 : upperBoundIdx (init ++ [L, i]) ⟨i.max, i.max⟩ = init.length + 2 := by
    rw [← hl1, he]
  rw [he2]
  have hd := compactSeg_decomp init [L, i] []
  rw [List.append_nil] at hd
  rw [show init.length + 2 = init.length + ([L, i] : ISet).length from rfl]
  rw [hd, List.append_nil]
  rfl

/-- `Add` when the new interval sorts directly before the last stored one:
the compacted range is the new interval followed by the last stored one. -/
theorem add_penult {init : ISet} {L i : QuicInterval}
    (hv : Valid (init ++ [L]) = true) (hne : i.min < i.max)
    (hall : ∀ x ∈ init, LessP x i) (hiL : LessP i L) (hLmin : L.min ≤ i.min)
    (hprobe : IntervalLess ⟨i.max, i.max⟩ L = false) :
    Add (init ++ [L]) i = init ++ compactGo i [L] := by
  have hemp : ¬(i.Empty = true) := by
    rw [empty_iff]
    omega
  have hins := setInsert_between hall
    (show ∀ y ∈ [L], LessP i y from
      fun y hy => by rcases List.mem_singleton.mp hy with rfl; exact hiL)
  have hl1 : (setInsert (init ++ [L]) i).1 = init ++ [i, L] := by
    rw [hins]
  have hl1s : (setInsert (init ++ [L]) i).1.Pairwise LessP :=
    setInsert_sorted (valid_pairwise_lessP hv)
  have he : upperBoundIdx (setInsert (init ++ [L]) i).1 ⟨i.max, i.max⟩ =
      init.length + 2 := by
    rw [hl1] at hl1s ⊢
    have hlen : (init ++ [i, L]).length = init.length + 2 := by simp
    have hlast : (init ++ [i, L]).getD ((init ++ [i, L]).length - 1) default = L := by
      rw [hlen, List.getD_append_right _ _ _ _ (by simp)]
      rw [show init.length + 2 - 1 - init.length = 1 from by omega]
      rfl
    rw [upperBoundIdx_eq_length hl1s (by simp) (by rw [hlast]; exact hprobe), hlen]
  rw [Add, if_neg hemp, hins]
  rw [show ((init ++ QuicInterval.mk i.min i.max :: [L], init.length, true).2.2 : Bool)
        = true from rfl]
  rw [show (!true) = false from rfl, if_neg (by simp)]
  have hidx : ((init ++ i :: [L], init.length, true).2.1 : Nat) = init.length := rfl
  rw [hidx]
  have harg : ((init ++ i :: [L], init.length, true).1 : ISet) = init ++ [i, L] := rfl
  rw [harg]
  have he2 : upperBoundIdx (init ++ [i, L]) ⟨i.max, i.max⟩ = init.length + 2 := by
    rw [← hl1, he]
  rw [he2]
  rcases List.eq_nil_or_concat init with rfl | ⟨init2, pl, rfl⟩
  · rw [show (if ([] : ISet).length = 0 then 0 else ([] : ISet).length - 1) = 0 from rfl]
    rw [show (List.length ([] : ISet) + 2 : Nat) = ([i, L] : ISet).length from rfl]
    rw [show ([] : ISet) ++ [i, L] = [i, L] from rfl]
    rw [compactSeg_full]
    rfl
  · simp only [List.concat_eq_append] at *
    have hplmax : pl.max < i.min := by
      have hp := ordered_pairwise (valid_ordered hv) (valid_allNE hv)
      rw [List.pairwise_append] at hp
      have hcr := hp.2.2 pl (by simp) L (by simp)
      omega
    have hlenp : (init2 ++ [pl]).length = init2.length + 1 := by simp
    rw [hlenp, if_neg (Nat.succ_ne_zero _), Nat.add_sub_cancel]
    have hshape : init2 ++ [pl] ++ [i, L] = init2 ++ [pl, i, L] ++ [] := by simp
    rw [hshape]
    have hd := compactSeg_decomp init2 [pl, i, L] []
    rw [show init2.length + 1 + 2 = init2.length + ([pl, i, L] : ISet).length from by simp]
    rw [hd, List.append_nil]
    rw [show compactList ([pl, i, L] : ISet) =
          (if i.min ≤ pl.max then compactGo ⟨pl.min, Max.max pl.max i.max⟩ [L]
           else pl :: compactGo i [L]) from rfl,
      if_neg (by omega)]
    simp [List.append_assoc]

theorem interval_ext {a b : QuicInterval} (h1 : a.min = b.min)
    (h2 : a.max = b.max) : a = b := by
  cases a
  cases b
  simp_all

theorem addOpt_of_getLast_some {l : ISet} {i last : QuicInterval}
    (hgl : l.getLast? = some last) :
    AddOptimizedForAppend l i =
      if i.min < last.min || last.max < i.min then Add l i
      else if i.max ≤ last.max then l
      else l.dropLast ++ [last.SetMax i.max] := by
  rw [AddOptimizedForAppend, hgl]

/-- C4: whenever the fast-path conditions of `AddOptimizedForAppend` hold —
the set is non-empty and, with `L` its last stored interval,
`L.min <= interval.min <= L.max` — the optimized append produces exactly the
same set as `Add` on an equal starting set. -/
theorem C4_add_optimized_equiv {S : ISet} {i : QuicInterval}
    (hv : Valid S = true) (hne : S ≠ [])
    (hmin : (S.getLast hne).min ≤ i.min) (hmax : i.min ≤ (S.getLast hne).max) :
    AddOptimizedForAppend S i = Add S i := by
  set L := S.getLast hne with hL
  have hS : S.dropLast ++ [L] = S := List.dropLast_append_getLast hne
  have hgl : S.getLast? = some L := List.getLast?_eq_getLast S hne
  have hv' : Valid (S.dropLast ++ [L]) = true := by
    rw [hS]
    exact hv
  have hLne : L.min < L.max := valid_allNE hv L (by rw [← hS]; simp)
  have hallinit : ∀ x ∈ S.dropLast, x.max < L.min ∧ x.min < x.max := by
    intro x hx
    have hp := ordered_pairwise (valid_ordered hv) (valid_allNE hv)
    rw [← hS, List.pairwise_append] at hp
    exact ⟨hp.2.2 x hx L (by simp),
      valid_allNE hv x ((List.dropLast_sublist S).subset hx)⟩
  have hall' : ∀ x ∈ S.dropLast, LessP x i := by
    intro x hx
    have hx' := hallinit x hx
    exact lessP_iff.mpr (Or.inl (by omega))
  rw [addOpt_of_getLast_some hgl]
  rw [if_neg (by simp only [Bool.or_eq_true, decide_eq_true_eq]; push_neg; omega)]
  by_cases hc : i.max ≤ L.max
  · rw [if_pos (by simpa using hc)]
    by_cases hie : i.min < i.max
    · by_cases heq : i = L
      · have hLmem : i ∈ S := by
          rw [heq, ← hS]
          simp
        have hm := setInsert_mem (valid_pairwise_lessP hv) hLmem
        rw [Add, if_neg (by rw [empty_iff]; omega), if_pos (by simp [hm.2])]
      · have hLi : LessP L i := by
          rw [lessP_iff]
          rcases lt_or_eq_of_le hmin with h | h
          · exact Or.inl h
          · refine Or.inr ⟨h, ?_⟩
            rcases lt_or_eq_of_le hc with h2 | h2
            · exact h2
            · exact absurd (interval_ext h.symm h2) heq
        have hadd : Add S i = S.dropLast ++ compactGo L [i] := by
          conv_lhs => rw [← hS]
          exact add_to_last hv' hie hall' hLi
        rw [hadd]
        rw [show compactGo L [i] =
              (if i.min ≤ L.max then compactGo ⟨L.min, Max.max L.max i.max⟩ []
               else L :: compactGo i []) from rfl,
          if_pos hmax]
        rw [show compactGo (⟨L.min, Max.max L.max i.max⟩ : QuicInterval) [] =
              [⟨L.min, Max.max L.max i.max⟩] from rfl]
        rw [max_eq_left hc]
        exact hS.symm
    · rw [Add, if_pos (by rw [empty_iff]; omega)]
  · rw [if_neg (by simpa using hc)]
    push_neg at hc
    have hie : i.min < i.max := by omega
    rcases lt_or_eq_of_le hmin with hmlt | hmeq
    · have hLi : LessP L i := lessP_iff.mpr (Or.inl hmlt)
      have hadd : Add S i = S.dropLast ++ compactGo L [i] := by
        conv_lhs => rw [← hS]
        exact add_to_last hv' hie hall' hLi
      rw [hadd]
      rw [show compactGo L [i] =
            (if i.min ≤ L.max then compactGo ⟨L.min, Max.max L.max i.max⟩ []
             else L :: compactGo i []) from rfl,
        if_pos hmax]
      rw [show compactGo (⟨L.min, Max.max L.max i.max⟩ : QuicInterval) [] =
            [⟨L.min, Max.max L.max i.max⟩] from rfl]
      rw [max_eq_right (le_of_lt hc)]
      rfl
    · have hiL : LessP i L := lessP_iff.mpr (Or.inr ⟨hmeq.symm, hc⟩)
      have hprobe : IntervalLess ⟨i.max, i.max⟩ L = false := by
        by_contra hcon
        rw [Bool.not_eq_false, intervalLess_mk_left] at hcon
        omega
      have hadd : Add S i = S.dropLast ++ compactGo i [L] := by
        conv_lhs => rw [← hS]
        exact add_penult hv' hie hall' hiL (le_of_eq hmeq) hprobe
      rw [hadd]
      rw [show compactGo i [L] =
            (if L.min ≤ i.max then compactGo ⟨i.min, Max.max i.max L.max⟩ []
             else i :: compactGo L []) from rfl,
        if_pos (by omega)]
      rw [show compactGo (⟨i.min, Max.max i.max L.max⟩ : QuicInterval) [] =
            [⟨i.min, Max.max i.max L.max⟩] from rfl]
      rw [max_eq_left (le_of_lt hc)]
      rw [show (⟨i.min, i.max⟩ : QuicInterval) = L.SetMax i.max from by
            rw [SetMax, ← hmeq]]
  -- end

theorem C4_add_optimized_equiv_witness :
    AddOptimizedForAppend [⟨0, 5⟩, ⟨10, 20⟩] ⟨15, 30⟩ =
      Add [⟨0, 5⟩, ⟨10, 20⟩] ⟨15, 30⟩ :=
  C4_add_optimized_equiv (by decide) (by decide) (by decide) (by decide)

/-- `AddOptimizedForAppend` preserves the `Valid` invariant. -/
theorem addOpt_valid {l : ISet} {i : QuicInterval} (hv : Valid l = true) :
    Valid (AddOptimizedForAppend l i) = true := by
  cases hgl : l.getLast? with
  | none =>
    rw [AddOptimizedForAppend, hgl]
    exact add_valid hv
  | some last =>
    have hlne : l ≠ [] := by
      intro h
      rw [h] at hgl
      simp at hgl
    have hlast : l.getLast hlne = last := by
      have := List.getLast?_eq_getLast l hlne
      rw [hgl] at this
      exact (Option.some_inj.mp this).symm
    by_cases hfast : i.min < last.min ∨ last.max < i.min
    · rw [addOpt_of_getLast_some hgl,
        if_pos (by simp only [Bool.or_eq_true, decide_eq_true_eq]; exact hfast)]
      exact add_valid hv
    · push_neg at hfast
      rw [C4_add_optimized_equiv hv hlne (hlast ▸ hfast.1) (hlast ▸ hfast.2)]
      exact add_valid hv

theorem valid_sublist {l s : ISet} (hv : Valid l = true) (hs : s.Sublist l) :
    Valid s = true :=
  valid_iff.mpr ⟨(valid_sub hv hs).1, (valid_sub hv hs).2.1⟩

theorem headI_mem {l : ISet} (h : l ≠ []) : l.headI ∈ l := by
  cases l with
  | nil => exact absurd rfl h
  | cons x xs => exact List.mem_cons_self x xs

theorem skipLe_le_length (bound : Int) (l : ISet) : skipLe bound l ≤ l.length := by
  induction l with
  | nil => simp [skipLe]
  | cons a rest ih =>
    rw [skipLe]
    split
    · simpa using Nat.succ_le_succ ih
    · simp

/-- Every element the inner advance loop skips has `max() <=` the bound. -/
theorem skipLe_lt_spec {bound : Int} {l : ISet} {j : Nat} (hj : j < skipLe bound l) :
    (l.getD j default).max ≤ bound := by
  induction l generalizing j with
  | nil => simp [skipLe] at hj
  | cons a rest ih =>
    rw [skipLe] at hj
    split at hj
    · cases j with
      | zero => simpa using ‹a.max ≤ bound›
      | succ n =>
        rw [List.getD_cons_succ]
        exact ih (Nat.lt_of_succ_lt_succ hj)
    · omega

/-- The inner advance loop stops at the first element with `max()` above the
bound. -/
theorem skipLe_stop {bound : Int} {l : ISet} (h : skipLe bound l < l.length) :
    bound < (l.getD (skipLe bound l) default).max := by
  induction l with
  | nil => simp at h
  | cons a rest ih =>
    by_cases hc : a.max ≤ bound
    · rw [skipLe, if_pos hc] at h ⊢
      rw [List.getD_cons_succ]
      exact ih (Nat.lt_of_succ_lt_succ h)
    · rw [skipLe, if_neg hc]
      rw [List.getD_cons_zero]
      omega

theorem findPairGo_succ (x y : ISet) (fuel mine theirs : Nat) :
    findPairGo x y (fuel + 1) mine theirs =
      if x.length ≤ mine ∨ y.length ≤ theirs then some (false, mine, theirs)
      else if (x.getD mine default).Intersects (y.getD theirs default) then
        some (true, mine, theirs)
      else if x.length ≤ mine + skipLe (y.getD theirs default).min (x.drop mine) then
        some (false, mine + skipLe (y.getD theirs default).min (x.drop mine), theirs)
      else if y.length ≤ theirs + skipLe
          (x.getD (mine + skipLe (y.getD theirs default).min (x.drop mine)) default).min
          (y.drop theirs) then
        some (false, mine + skipLe (y.getD theirs default).min (x.drop mine),
          theirs + skipLe (x.getD (mine + skipLe (y.getD theirs default).min
            (x.drop mine)) default).min (y.drop theirs))
      else
        findPairGo x y fuel (mine + skipLe (y.getD theirs default).min (x.drop mine))
          (theirs + skipLe (x.getD (mine + skipLe (y.getD theirs default).min
            (x.drop mine)) default).min (y.drop theirs)) := rfl

theorem findPairEraseGo_succ (y : ISet) (fuel : Nat) (xs : ISet) (th : Nat) :
    findPairEraseGo y (fuel + 1) xs th =
      if xs.length = 0 ∨ y.length ≤ th then some (false, xs, th)
      else if xs.headI.Intersects (y.getD th default) then some (true, xs, th)
      else if (xs.drop (skipLe (y.getD th default).min xs)).length = 0 then
        some (false, xs.drop (skipLe (y.getD th default).min xs), th)
      else if y.length ≤ th + skipLe
          (xs.drop (skipLe (y.getD th default).min xs)).headI.min (y.drop th) then
        some (false, [], th + skipLe
          (xs.drop (skipLe (y.getD th default).min xs)).headI.min (y.drop th))
      else
        findPairEraseGo y fuel (xs.drop (skipLe (y.getD th default).min xs))
          (th + skipLe (xs.drop (skipLe (y.getD th default).min xs)).headI.min
            (y.drop th)) := rfl

theorem IntersectionLoop_succ (y : ISet) (fuel : Nat) (xs : ISet) (th : Nat) :
    IntersectionLoop y (fuel + 1) xs th =
      match findPairEraseGo y (xs.length + y.length + 1) xs th with
      | none => none
      | some (false, survivors, _) => some survivors
      | some (true, xs2, th2) =>
        match IntersectionLoop y fuel (xs2.drop 1)
            (th2 + (collectInters xs2.headI (y.drop th2)).length - 1) with
        | none => none
        | some rest => some (collectInters xs2.headI (y.drop th2) ++ rest) := rfl

theorem DiffLoop_succ (y : ISet) (fuel : Nat) (xs : ISet) (th : Nat) :
    DiffLoop y (fuel + 1) xs th =
      match findPairGo xs y (xs.length + y.length + 1) 0 th with
      | none => none
      | some (false, _, _) => some xs
      | some (true, m, th2) =>
        match DiffLoop y fuel
            (if ((xs.getD m default).Difference (y.getD th2 default)).2.Empty then
              xs.drop (m + 1)
             else ((xs.getD m default).Difference (y.getD th2 default)).2 :: xs.drop (m + 1))
            th2 with
        | none => none
        | some tail =>
          some (xs.take m ++
            (if ((xs.getD m default).Difference (y.getD th2 default)).1.Empty then []
             else [((xs.getD m default).Difference (y.getD th2 default)).1]) ++ tail) := rfl

/-- Soundness of the non-erasing two-pointer walk: positions only advance,
and a reported pair really intersects. -/
theorem findPairGo_sound {x y : ISet} :
    ∀ {fuel mine th : Nat} {res : Bool × Nat × Nat},
      findPairGo x y fuel mine th = some res →
      mine ≤ res.2.1 ∧ th ≤ res.2.2 ∧
      (res.1 = true →
        res.2.1 < x.length ∧ res.2.2 < y.length ∧
        ((x.getD res.2.1 default).Intersects (y.getD res.2.2 default)) = true) := by
  intro fuel
  induction fuel with
  | zero =>
    intro mine th res h
    simp [findPairGo] at h
  | succ f ih =>
    intro mine th res h
    rw [findPairGo_succ] at h
    by_cases hend : x.length ≤ mine ∨ y.length ≤ th
    · rw [if_pos hend] at h
      obtain rfl := Option.some_inj.mp h.symm
      exact ⟨le_rfl, le_rfl, by simp⟩
    · rw [if_neg hend] at h
      push_neg at hend
      by_cases hint : ((x.getD mine default).Intersects (y.getD th default)) = true
      · rw [if_pos hint] at h
        obtain rfl := Option.some_inj.mp h.symm
        exact ⟨le_rfl, le_rfl, fun _ => ⟨hend.1, hend.2, hint⟩⟩
      · rw [if_neg hint] at h
        by_cases h2 : x.length ≤ mine + skipLe (y.getD th default).min (x.drop mine)
        · rw [if_pos h2] at h
          obtain rfl := Option.some_inj.mp h.symm
          exact ⟨Nat.le_add_right _ _, le_rfl, by simp⟩
        · rw [if_neg h2] at h
          by_cases h3 : y.length ≤ th + skipLe
              (x.getD (mine + skipLe (y.getD th default).min (x.drop mine)) default).min
              (y.drop th)
          · rw [if_pos h3] at h
            obtain rfl := Option.some_inj.mp h.symm
            exact ⟨Nat.le_add_right _ _, Nat.le_add_right _ _, by simp⟩
          · rw [if_neg h3] at h
            have hrec := ih h
            exact ⟨le_trans (Nat.le_add_right _ _) hrec.1,
              le_trans (Nat.le_add_right _ _) hrec.2.1, hrec.2.2⟩

/-- Soundness of the erasing two-pointer walk: the surviving contents are a
suffix of the input, `theirs` only advances, and a reported pair really
intersects. -/
theorem findPairEraseGo_sound {y : ISet} :
    ∀ {fuel : Nat} {xs : ISet} {th : Nat} {res : Bool × ISet × Nat},
      findPairEraseGo y fuel xs th = some res →
      (∃ k, res.2.1 = xs.drop k) ∧ th ≤ res.2.2 ∧
      (res.1 = true → res.2.1 ≠ [] ∧ res.2.2 < y.length ∧
        (res.2.1.headI.Intersects (y.getD res.2.2 default)) = true) := by
  intro fuel
  induction fuel with
  | zero =>
    intro xs th res h
    simp [findPairEraseGo] at h
  | succ f ih =>
    intro xs th res h
    rw [findPairEraseGo_succ] at h
    by_cases hend : xs.length = 0 ∨ y.length ≤ th
    · rw [if_pos hend] at h
      obtain rfl := Option.some_inj.mp h.symm
      exact ⟨⟨0, rfl⟩, le_rfl, by simp⟩
    · rw [if_neg hend] at h
      push_neg at hend
      by_cases hint : (xs.headI.Intersects (y.getD th default)) = true
      · rw [if_pos hint] at h
        obtain rfl := Option.some_inj.mp h.symm
        refine ⟨⟨0, rfl⟩, le_rfl, fun _ => ⟨?_, hend.2, hint⟩⟩
        show xs ≠ []
        intro hnil
        rw [hnil] at hend
        simp at hend
      · rw [if_neg hint] at h
        by_cases h2 : (xs.drop (skipLe (y.getD th default).min xs)).length = 0
        · rw [if_pos h2] at h
          obtain rfl := Option.some_inj.mp h.symm
          exact ⟨⟨_, rfl⟩, le_rfl, by simp⟩
        · rw [if_neg h2] at h
          by_cases h3 : y.length ≤ th + skipLe
              (xs.drop (skipLe (y.getD th default).min xs)).headI.min (y.drop th)
          · rw [if_pos h3] at h
            obtain rfl := Option.some_inj.mp h.symm
            refine ⟨⟨xs.length, (List.drop_length xs).symm⟩, Nat.le_add_right _ _, by simp⟩
          · rw [if_neg h3] at h
            have hrec := ih h
            obtain ⟨⟨k, hk⟩, hth, htrue⟩ := hrec
            refine ⟨⟨skipLe (y.getD th default).min xs + k, ?_⟩,
              le_trans (Nat.le_add_right _ _) hth, htrue⟩
            rw [hk, List.drop_drop]

/-- Facts about the inner insertion loop of `Intersection`: the inserted
intersections are chained, non-empty, bracketed inside `i`, and each starts
no earlier than some interval of the walked suffix. -/
theorem collectInters_facts {i : QuicInterval} (hi : i.min < i.max) :
    ∀ {ys : ISet}, (ys.Pairwise fun a b => a.max < b.min) → AllNE ys →
      Ordered (collectInters i ys) ∧
      ∀ z ∈ collectInters i ys,
        i.min ≤ z.min ∧ z.max ≤ i.max ∧ z.min < z.max ∧ ∃ t ∈ ys, t.min ≤ z.min := by
  intro ys
  induction ys with
  | nil => exact fun _ _ => ⟨List.chain'_nil, by simp [collectInters]⟩
  | cons t rest ih =>
    intro hp hne
    rw [List.pairwise_cons] at hp
    by_cases hint : (i.Intersects t) = true
    · rw [collectInters, if_pos hint]
      have hrec := ih hp.2 (fun z hz => hne z (List.mem_cons_of_mem _ hz))
      have hint' := intersects_iff.mp hint
      constructor
      · rw [Ordered, List.chain'_cons']
        refine ⟨?_, hrec.1⟩
        intro z hz
        obtain ⟨_, _, _, t', ht', hmin'⟩ := hrec.2 z (List.mem_of_mem_head? hz)
        have hcr := hp.1 t' ht'
        show Min.min i.max t.max < z.min
        omega
      · intro z hz
        rcases List.mem_cons.mp hz with rfl | hz'
        · refine ⟨?_, ?_, ?_, t, List.mem_cons_self _ _, ?_⟩
          · show i.min ≤ Max.max i.min t.min
            omega
          · show Min.min i.max t.max ≤ i.max
            omega
          · show Max.max i.min t.min < Min.min i.max t.max
            omega
          · show t.min ≤ Max.max i.min t.min
            omega
        · obtain ⟨h1, h2, h3, t', ht', h4⟩ := hrec.2 z hz'
          exact ⟨h1, h2, h3, t', List.mem_cons_of_mem _ ht', h4⟩
    · rw [collectInters, if_neg hint]
      exact ⟨List.chain'_nil, by simp⟩

/-- The outer loop of `Intersection` produces a valid set each of whose
intervals lies inside some interval of the surviving suffix it started
from. -/
theorem interLoop_valid {y : ISet} (hy : Valid y = true) :
    ∀ {fuel : Nat} {xs : ISet} {th : Nat} {out : ISet},
      Valid xs = true → IntersectionLoop y fuel xs th = some out →
      Valid out = true ∧ ∀ z ∈ out, ∃ s ∈ xs, s.min ≤ z.min ∧ z.max ≤ s.max := by
  intro fuel
  induction fuel with
  | zero =>
    intro xs th out _ h
    simp [IntersectionLoop] at h
  | succ f ih =>
    intro xs th out hxs h
    rw [IntersectionLoop_succ] at h
    cases hfp : findPairEraseGo y (xs.length + y.length + 1) xs th with
    | none =>
      rw [hfp] at h
      simp at h
    | some res =>
      rw [hfp] at h
      obtain ⟨⟨k, hk⟩, hth, htrue⟩ := findPairEraseGo_sound hfp
      obtain ⟨found, xs2, th2⟩ := res
      cases found with
      | false =>
        have h' : some xs2 = some out := h
        obtain rfl := Option.some_inj.mp h'
        have hk' : xs2 = xs.drop k := hk
        subst hk'
        refine ⟨valid_sublist hxs (List.drop_sublist k xs), ?_⟩
        intro z hz
        exact ⟨z, (List.drop_sublist k xs).subset hz, le_rfl, le_rfl⟩
      | true =>
        have hk' : xs2 = xs.drop k := hk
        obtain ⟨hne2, hth2, hint⟩ := htrue rfl
        have hne2' : xs2 ≠ [] := hne2
        have hth2' : (th2 : Nat) < y.length := hth2
        have hv2 : Valid xs2 = true := hk' ▸ valid_sublist hxs (List.drop_sublist k xs)
        obtain ⟨i0, tail, hcons⟩ : ∃ i0 tail, xs2 = i0 :: tail := by
          cases hc : xs2 with
          | nil => exact absurd hc hne2'
          | cons i0 tail => exact ⟨_, _, rfl⟩
        have hhead : xs2.headI = i0 := by rw [hcons]; rfl
        have hi0ne : i0.min < i0.max :=
          valid_allNE hv2 i0 (by rw [hcons]; exact List.mem_cons_self _ _)
        have hyd := valid_sub hy (List.drop_sublist th2 y)
        have hydP : ((y.drop th2).Pairwise fun a b => a.max < b.min) :=
          (ordered_pairwise (valid_ordered hy) (valid_allNE hy)).sublist
            (List.drop_sublist th2 y)
        have hfacts := collectInters_facts hi0ne hydP hyd.2.1
        have h2 : (match IntersectionLoop y f (xs2.drop 1)
            (th2 + (collectInters xs2.headI (y.drop th2)).length - 1) with
          | none => none
          | some rest => some (collectInters xs2.headI (y.drop th2) ++ rest)) =
            some out := h
        cases hrec : IntersectionLoop y f (xs2.drop 1)
            (th2 + (collectInters xs2.headI (y.drop th2)).length - 1) with
        | none =>
          rw [hrec] at h2
          exact absurd h2 (by simp)
        | some rest =>
          rw [hrec] at h2
          have h' : some (collectInters xs2.headI (y.drop th2) ++ rest) = some out := h2
          obtain rfl := Option.some_inj.mp h'
          have htail : xs2.drop 1 = tail := by rw [hcons]; rfl
          have hihrec := ih
            (show Valid (xs2.drop 1) = true from
              by rw [htail]; exact valid_sublist hv2 (by rw [hcons]; simp)) hrec
          have hheadlt : ∀ s' ∈ tail, i0.max < s'.min := by
            have hvv := valid_iff.mp hv2
            rw [hcons] at hvv
            exact ordered_head_lt hvv.1
              (fun z hz => hvv.2 z (List.mem_cons_of_mem _ hz))
          rw [hhead]
          constructor
          · rw [valid_iff]
            constructor
            · rw [Ordered, List.chain'_append]
              refine ⟨hfacts.1, valid_ordered hihrec.1, ?_⟩
              intro p hp q hq
              obtain ⟨_, hpmax, _, _⟩ := hfacts.2 p (List.mem_of_mem_getLast? hp)
              obtain ⟨s', hs', hs'min, _⟩ := hihrec.2 q (List.mem_of_mem_head? hq)
              rw [htail] at hs'
              have := hheadlt s' hs'
              omega
            · intro z hz
              rcases List.mem_append.mp hz with hzc | hzr
              · exact (hfacts.2 z hzc).2.2.1
              · exact valid_allNE hihrec.1 z hzr
          · intro z hz
            rcases List.mem_append.mp hz with hzc | hzr
            · obtain ⟨hzmin, hzmax, _, _⟩ := hfacts.2 z hzc
              refine ⟨i0, ?_, hzmin, hzmax⟩
              rw [hk'] at hcons
              exact (List.drop_sublist k xs).subset (by rw [hcons]; simp)
            · obtain ⟨s', hs', hb1, hb2⟩ := hihrec.2 z hzr
              rw [htail] at hs'
              refine ⟨s', ?_, hb1, hb2⟩
              rw [hk'] at hcons
              exact (List.drop_sublist k xs).subset
                (by rw [hcons]; exact List.mem_cons_of_mem _ hs')

/-- `Intersection` preserves the `Valid` invariant. -/
theorem intersection_valid {a b : ISet} (ha : Valid a = true) (hb : Valid b = true) :
    Valid (Intersection a b) = true := by
  rw [Intersection]
  by_cases hsp : ((SpanningInterval a).Intersects (SpanningInterval b)) = true
  · rw [if_neg (by simp [hsp])]
    show Valid ((IntersectionLoop b
      ((a.drop (FindIntersectionCandidate a b.headI)).length + 1)
      (a.drop (FindIntersectionCandidate a b.headI))
      (FindIntersectionCandidate b
        (a.drop (FindIntersectionCandidate a b.headI)).headI)).getD []) = true
    cases hl : IntersectionLoop b
        ((a.drop (FindIntersectionCandidate a b.headI)).length + 1)
        (a.drop (FindIntersectionCandidate a b.headI))
        (FindIntersectionCandidate b
          (a.drop (FindIntersectionCandidate a b.headI)).headI) with
    | none => rfl
    | some out =>
      rw [Option.getD_some]
      exact (interLoop_valid hb
        (valid_sublist ha (List.drop_sublist _ a)) hl).1
  · rw [if_pos (by simpa using hsp)]
    rfl

/-- The outer loop of `Difference` produces a valid set each of whose
intervals lies inside some interval of the suffix it started from. -/
theorem diffLoop_valid {y : ISet} (hy : Valid y = true) :
    ∀ {fuel : Nat} {xs : ISet} {th : Nat} {out : ISet},
      Valid xs = true → DiffLoop y fuel xs th = some out →
      Valid out = true ∧ ∀ z ∈ out, ∃ s ∈ xs, s.min ≤ z.min ∧ z.max ≤ s.max := by
  intro fuel
  induction fuel with
  | zero =>
    intro xs th out _ h
    simp [DiffLoop] at h
  | succ f ih =>
    intro xs th out hxs h
    rw [DiffLoop_succ] at h
    cases hfp : findPairGo xs y (xs.length + y.length + 1) 0 th with
    | none =>
      rw [hfp] at h
      simp at h
    | some res =>
      rw [hfp] at h
      obtain ⟨res1, m, th2⟩ := res
      cases res1 with
      | false =>
        have h' : some xs = some out := h
        obtain rfl := Option.some_inj.mp h'
        exact ⟨hxs, fun z hz => ⟨z, hz, le_rfl, le_rfl⟩⟩
      | true =>
        obtain ⟨_, _, hsound⟩ := findPairGo_sound hfp
        obtain ⟨hmb, hth2b, hintb⟩ := hsound rfl
        have hm : m < xs.length := hmb
        have hth2 : th2 < y.length := hth2b
        have hint : ((xs.getD m default).Intersects (y.getD th2 default)) = true := hintb
        have hii := intersects_iff.mp hint
        have himem : xs.getD m default ∈ xs := getD_mem hm
        have hdropm : xs.drop m = xs.getD m default :: xs.drop (m + 1) := by
          rw [List.getD_eq_getElem _ _ hm]
          exact List.drop_eq_getElem_cons hm
        have hxsP : xs.Pairwise fun a b => a.max < b.min :=
          ordered_pairwise (valid_ordered hxs) (valid_allNE hxs)
        have htake_lt : ∀ p ∈ xs.take m, p.max < (xs.getD m default).min := by
          have hsplit := hxsP
          rw [show xs = xs.take m ++ xs.drop m from (List.take_append_drop m xs).symm,
            List.pairwise_append] at hsplit
          intro p hp
          exact hsplit.2.2 p hp _ (by rw [hdropm]; exact List.mem_cons_self _ _)
        have hdrop_gt : ∀ s ∈ xs.drop (m + 1), (xs.getD m default).max < s.min := by
          have hvd : Valid (xs.drop m) = true := valid_sublist hxs (List.drop_sublist m xs)
          rw [hdropm] at hvd
          have hvv := valid_iff.mp hvd
          exact ordered_head_lt hvv.1 fun z hz => hvv.2 z (List.mem_cons_of_mem _ hz)
        set lo := ((xs.getD m default).Difference (y.getD th2 default)).1 with hlodef
        set hi := ((xs.getD m default).Difference (y.getD th2 default)).2 with hhidef
        have hlomin : lo.min = (xs.getD m default).min := rfl
        have hlomax : lo.max = Min.min (xs.getD m default).max (y.getD th2 default).min := rfl
        have himin : hi.min = Max.max (xs.getD m default).min (y.getD th2 default).max := rfl
        have himax : hi.max = (xs.getD m default).max := rfl
        have hrest_valid : Valid (if hi.Empty then xs.drop (m + 1)
            else hi :: xs.drop (m + 1)) = true := by
          by_cases hhe : hi.Empty = true
          · rw [if_pos hhe]
            exact valid_sublist hxs (List.drop_sublist _ xs)
          · rw [if_neg hhe]
            have hhine : hi.min < hi.max := not_empty_iff.mp (by simpa using hhe)
            have hvd : Valid (xs.drop (m + 1)) = true :=
              valid_sublist hxs (List.drop_sublist _ xs)
            rw [valid_iff]
            constructor
            · rw [Ordered, List.chain'_cons']
              refine ⟨?_, valid_ordered hvd⟩
              intro z hz
              have hzmem := List.mem_of_mem_head? hz
              have := hdrop_gt z hzmem
              rw [himax]
              omega
            · intro z hz
              rcases List.mem_cons.mp hz with rfl | hz'
              · exact hhine
              · exact valid_allNE hvd z hz'
        have h2 : (match DiffLoop y f (if hi.Empty then xs.drop (m + 1)
            else hi :: xs.drop (m + 1)) th2 with
          | none => none
          | some tail => some (xs.take m ++ (if lo.Empty then [] else [lo]) ++ tail)) =
            some out := h
        cases hrec : DiffLoop y f (if hi.Empty then xs.drop (m + 1)
            else hi :: xs.drop (m + 1)) th2 with
        | none =>
          rw [hrec] at h2
          exact absurd h2 (by simp)
        | some tail =>
          rw [hrec] at h2
          have h' : some (xs.take m ++ (if lo.Empty then [] else [lo]) ++ tail) =
              some out := h2
          obtain rfl := Option.some_inj.mp h'
          have hihrec := ih hrest_valid hrec
          -- every element of `tail` starts after both `lo.max` and the prefix
          have htail_facts : ∀ z ∈ tail,
              lo.max < z.min ∧ (∀ p ∈ xs.take m, p.max < z.min) ∧
              ∃ s ∈ xs, s.min ≤ z.min ∧ z.max ≤ s.max := by
            intro z hz
            obtain ⟨s, hs, hb1, hb2⟩ := hihrec.2 z hz
            have hs_facts : (xs.getD m default).min ≤ s.min ∧ lo.max < s.min ∧
                (s ∈ xs ∨ (s.min ≤ hi.min ∧ hi.max ≤ s.max ∧ s = hi)) := by
              by_cases hhe : hi.Empty = true
              · rw [if_pos hhe] at hs
                have hgt := hdrop_gt s hs
                refine ⟨by omega, ?_, Or.inl ((List.drop_sublist _ xs).subset hs)⟩
                rw [hlomax]
                omega
              · rw [if_neg hhe] at hs
                rcases List.mem_cons.mp hs with rfl | hs'
                · refine ⟨by rw [himin]; omega, ?_, Or.inr ⟨le_rfl, le_rfl, rfl⟩⟩
                  rw [hlomax, himin]
                  have := hii.2.1
                  omega
                · have hgt := hdrop_gt s hs'
                  refine ⟨by omega, ?_, Or.inl ((List.drop_sublist _ xs).subset hs')⟩
                  rw [hlomax]
                  omega
            refine ⟨by omega, ?_, ?_⟩
            · intro p hp
              have := htake_lt p hp
              omega
            · rcases hs_facts.2.2 with hmem | ⟨hsm, hsM, rfl⟩
              · exact ⟨s, hmem, hb1, hb2⟩
              · refine ⟨xs.getD m default, himem, ?_, ?_⟩
                · rw [himin] at hb1
                  omega
                · rw [himax] at hb2
                  omega
          constructor
          · rw [valid_iff]
            constructor
            · rw [Ordered, List.append_assoc, List.chain'_append]
              refine ⟨(valid_sub hxs (List.take_sublist m xs)).1, ?_, ?_⟩
              · rw [List.chain'_append]
                refine ⟨?_, valid_ordered hihrec.1, ?_⟩
                · by_cases hle : lo.Empty = true
                  · rw [if_pos hle]
                    exact List.chain'_nil
                  · rw [if_neg hle]
                    exact List.chain'_singleton lo
                · intro p hp q hq
                  by_cases hle : lo.Empty = true
                  · rw [if_pos hle] at hp
                    simp at hp
                  · rw [if_neg hle] at hp
                    have hp' : p = lo := by
                      have := List.mem_of_mem_getLast? hp
                      simpa using this
                    subst hp'
                    exact (htail_facts q (List.mem_of_mem_head? hq)).1
              · intro p hp q hq
                have hpmem := List.mem_of_mem_getLast? hp
                have hptake := htake_lt p hpmem
                by_cases hle : lo.Empty = true
                · rw [if_pos hle, List.nil_append] at hq
                  exact (htail_facts q (List.mem_of_mem_head? hq)).2.1 p hpmem
                · rw [if_neg hle] at hq
                  rw [show ([lo] ++ tail : ISet) = lo :: tail from rfl, List.head?_cons,
                    Option.mem_def, Option.some_inj] at hq
                  subst hq
                  rw [hlomin]
                  exact hptake
            · intro z hz
              rw [List.append_assoc] at hz
              rcases List.mem_append.mp hz with hzt | hz2
              · exact valid_allNE hxs z ((List.take_sublist m xs).subset hzt)
              · rcases List.mem_append.mp hz2 with hzl | hztail
                · by_cases hle : lo.Empty = true
                  · rw [if_pos hle] at hzl
                    simp at hzl
                  · rw [if_neg hle] at hzl
                    have : z = lo := by simpa using hzl
                    subst this
                    exact not_empty_iff.mp (by simpa using hle)
                · exact valid_allNE hihrec.1 z hztail
          · intro z hz
            rw [List.append_assoc] at hz
            rcases List.mem_append.mp hz with hzt | hz2
            · exact ⟨z, (List.take_sublist m xs).subset hzt, le_rfl, le_rfl⟩
            · rcases List.mem_append.mp hz2 with hzl | hztail
              · by_cases hle : lo.Empty = true
                · rw [if_pos hle] at hzl
                  simp at hzl
                · rw [if_neg hle] at hzl
                  have : z = lo := by simpa using hzl
                  subst this
                  refine ⟨xs.getD m default, himem, ?_, ?_⟩
                  · rw [hlomin]
                  · rw [hlomax]
                    exact min_le_left _ _
              · exact (htail_facts z hztail).2.2

/-- `Difference(const QuicIntervalSet&)` preserves the `Valid` invariant. -/
theorem difference_valid {a b : ISet} (ha : Valid a = true) (hb : Valid b = true) :
    Valid (DifferenceSet a b) = true := by
  rw [DifferenceSet]
  by_cases hsp : ((SpanningInterval a).Intersects (SpanningInterval b)) = true
  · rw [if_neg (by simp [hsp])]
    show Valid (if a.length ≤ FindIntersectionCandidate a b.headI then a
      else a.take (FindIntersectionCandidate a b.headI) ++
        (DiffLoop b (a.length + 2 * b.length + 2)
          (a.drop (FindIntersectionCandidate a b.headI))
          (FindIntersectionCandidate b a.headI)).getD
          (a.drop (FindIntersectionCandidate a b.headI))) = true
    by_cases hm : a.length ≤ FindIntersectionCandidate a b.headI
    · rw [if_pos hm]
      exact ha
    · rw [if_neg hm]
      cases hl : DiffLoop b (a.length + 2 * b.length + 2)
          (a.drop (FindIntersectionCandidate a b.headI))
          (FindIntersectionCandidate b a.headI) with
      | none =>
        rw [Option.getD_none, List.take_append_drop]
        exact ha
      | some out =>
        rw [Option.getD_some]
        have hout := diffLoop_valid hb (valid_sublist ha (List.drop_sublist _ a)) hl
        have hcross : ∀ x ∈ a.take (FindIntersectionCandidate a b.headI),
            ∀ y' ∈ a.drop (FindIntersectionCandidate a b.headI), x.max < y'.min := by
          have hp2 := ordered_pairwise (valid_ordered ha) (valid_allNE ha)
          rw [show a = a.take (FindIntersectionCandidate a b.headI) ++
            a.drop (FindIntersectionCandidate a b.headI) from
            (List.take_append_drop _ a).symm, List.pairwise_append] at hp2
          exact hp2.2.2
        rw [valid_iff]
        constructor
        · rw [Ordered, List.chain'_append]
          refine ⟨(valid_sub ha (List.take_sublist _ a)).1, valid_ordered hout.1, ?_⟩
          intro p hp q hq
          obtain ⟨s, hs, hb1, _⟩ := hout.2 q (List.mem_of_mem_head? hq)
          have := hcross p (List.mem_of_mem_getLast? hp) s hs
          omega
        · intro z hz
          rcases List.mem_append.mp hz with h1 | h2
          · exact valid_allNE ha z ((List.take_sublist _ a).subset h1)
          · exact valid_allNE hout.1 z h2
  · rw [if_pos (by simpa using hsp)]
    exact ha

/-- `Difference(const value_type&)` preserves the `Valid` invariant. -/
theorem differenceInterval_valid {a : ISet} (ha : Valid a = true)
    (i : QuicInterval) : Valid (DifferenceInterval a i) = true := by
  rw [DifferenceInterval]
  by_cases h : ((SpanningInterval a).Intersects i) = true
  · rw [if_neg (by simp [h])]
    exact difference_valid ha (add_valid valid_nil)
  · rw [if_pos (by simpa using h)]
    exact ha

theorem differenceMinMax_valid {a : ISet} (ha : Valid a = true) (mn mx : Int) :
    Valid (DifferenceMinMax a mn mx) = true :=
  differenceInterval_valid ha _

theorem complement_valid {a : ISet} (ha : Valid a = true) (mn mx : Int) :
    Valid (Complement a mn mx) = true :=
  difference_valid (add_valid valid_nil) ha

theorem foldl_add_valid {il : List QuicInterval} :
    ∀ {acc : ISet}, Valid acc = true → Valid (il.foldl Add acc) = true := by
  induction il with
  | nil => exact fun h => h
  | cons x xs ih => exact fun h => ih (add_valid h)

theorem assign_valid {s : ISet} (il : List QuicInterval) :
    Valid (assign s il) = true :=
  foldl_add_valid valid_nil

/-- C1: every set reachable from the empty `QuicIntervalSet` by a finite
sequence of public operations (construction, `Add`, `AddOptimizedForAppend`,
`Union`, `Intersection`, `Difference`, `Complement`, `Clear`, `Swap`,
`assign`) satisfies `Valid()`: every stored interval is non-empty and every
adjacent pair `(a, b)` in iteration order has `a.max < b.min`. -/
theorem C1_reachable_valid {s : ISet} (h : Reachable s) : Valid s = true := by
  induction h with
  | empty => rfl
  | add i _ ih => exact add_valid ih
  | addOptimizedForAppend i _ ih => exact addOpt_valid ih
  | union _ _ ih1 ih2 => exact union_valid ih1 ih2
  | intersection _ _ ih1 ih2 => exact intersection_valid ih1 ih2
  | differenceInterval i _ ih => exact differenceInterval_valid ih i
  | differenceMinMax mn mx _ ih => exact differenceMinMax_valid ih mn mx
  | differenceSet _ _ ih1 ih2 => exact difference_valid ih1 ih2
  | complement mn mx _ ih => exact complement_valid ih mn mx
  | clear _ _ => rfl
  | swapLeft _ _ ih1 ih2 => exact ih2
  | swapRight _ _ ih1 ih2 => exact ih1
  | assignList il _ _ => exact assign_valid il

theorem C1_reachable_valid_witness :
    Valid (Add (Add [] ⟨10, 20⟩) ⟨15, 35⟩) = true :=
  C1_reachable_valid (Reachable.add ⟨15, 35⟩ (Reachable.add ⟨10, 20⟩ Reachable.empty))

theorem findPairGo_found {x y : ISet} {fuel mine th : Nat}
    (h1 : mine < x.length) (h2 : th < y.length)
    (h3 : ((x.getD mine default).Intersects (y.getD th default)) = true) :
    findPairGo x y (fuel + 1) mine th = some (true, mine, th) := by
  rw [findPairGo_succ, if_neg (by omega), if_pos h3]

theorem findPairGo_advance {x y : ISet} {fuel mine th : Nat}
    (h1 : mine < x.length) (h2 : th < y.length)
    (h3 : ((x.getD mine default).Intersects (y.getD th default)) = false)
    (h4 : mine + skipLe (y.getD th default).min (x.drop mine) < x.length)
    (h5 : th + skipLe (x.getD (mine + skipLe (y.getD th default).min (x.drop mine))
        default).min (y.drop th) < y.length) :
    findPairGo x y (fuel + 1) mine th =
      findPairGo x y fuel (mine + skipLe (y.getD th default).min (x.drop mine))
        (th + skipLe (x.getD (mine + skipLe (y.getD th default).min (x.drop mine))
          default).min (y.drop th)) := by
  rw [findPairGo_succ, if_neg (by omega), if_neg (by rw [h3]; exact Bool.false_ne_true),
    if_neg (by omega), if_neg (by omega)]

/-- Inside `Difference(A, A)`: from the state `(A.drop k, k - 1)` the
two-pointer walk finds the intersecting pair `(A[k], A[k])`. -/
theorem diff_self_find {A : ISet} (hv : Valid A = true) {k : Nat}
    (hk : k < A.length) :
    ∀ {fuel : Nat}, 2 ≤ fuel →
      findPairGo (A.drop k) A fuel 0 (k - 1) = some (true, 0, k) := by
  intro fuel hfuel
  obtain ⟨f, rfl⟩ : ∃ f, fuel = f + 1 := ⟨fuel - 1, by omega⟩
  have hdropk : A.drop k = A.getD k default :: A.drop (k + 1) := by
    rw [List.getD_eq_getElem _ _ hk]
    exact List.drop_eq_getElem_cons hk
  have hgd0 : (A.drop k).getD 0 default = A.getD k default := by
    rw [hdropk, List.getD_cons_zero]
  have hlendrop : (A.drop k).length = A.length - k := List.length_drop k A
  have hkdne : (A.getD k default).min < (A.getD k default).max :=
    valid_allNE hv _ (getD_mem hk)
  by_cases hk0 : k = 0
  · subst hk0
    rw [findPairGo_found (by omega) (by omega) ?int]
    case int =>
      rw [hgd0]
      exact intersects_iff.mpr ⟨hkdne, hkdne, hkdne, hkdne⟩
  · have hk1lt : k - 1 < A.length := by omega
    have hpred : (A.getD (k - 1) default).max < (A.getD k default).min :=
      pairwise_getD (ordered_pairwise (valid_ordered hv) (valid_allNE hv))
        (by omega) hk
    have hpne : (A.getD (k - 1) default).min < (A.getD (k - 1) default).max :=
      valid_allNE hv _ (getD_mem hk1lt)
    have hskip1 : skipLe (A.getD (k - 1) default).min ((A.drop k).drop 0) = 0 := by
      rw [List.drop_zero, hdropk, skipLe, if_neg (by omega)]
    have hdropk1 : A.drop (k - 1) = A.getD (k - 1) default :: A.drop k := by
      rw [List.getD_eq_getElem _ _ hk1lt]
      have := List.drop_eq_getElem_cons hk1lt
      rw [show k - 1 + 1 = k from by omega] at this
      exact this
    have hskip2 : skipLe (A.getD k default).min (A.drop (k - 1)) = 1 := by
      rw [hdropk1, skipLe, if_pos (by omega), hdropk, skipLe, if_neg (by omega)]
    obtain ⟨f', rfl⟩ : ∃ f', f = f' + 1 := ⟨f - 1, by omega⟩
    rw [findPairGo_advance (by omega) (by omega) ?noint ?h4 ?h5]
    case noint =>
      by_contra hcon
      rw [Bool.not_eq_false] at hcon
      have := intersects_iff.mp hcon
      rw [hgd0] at this
      omega
    case h4 =>
      rw [hskip1]
      omega
    case h5 =>
      rw [hskip1]
      rw [show (0 + 0 : Nat) = 0 from rfl, hgd0, hskip2]
      omega
    rw [hskip1]
    rw [show (0 + 0 : Nat) = 0 from rfl, hgd0, hskip2]
    rw [show k - 1 + 1 = k from by omega]
    rw [findPairGo_found (by omega) (by omega) ?int2]
    case int2 =>
      rw [hgd0]
      exact intersects_iff.mpr ⟨hkdne, hkdne, hkdne, hkdne⟩

/-- The spanning interval of a valid non-empty set is non-empty. -/
theorem spanning_nonempty {A : ISet} (hv : Valid A = true) (hne : A ≠ []) :
    (SpanningInterval A).min < (SpanningInterval A).max := by
  cases A with
  | nil => exact absurd rfl hne
  | cons x rest =>
    have hL : (x :: rest).getLast?.getD ⟨0, 0⟩ =
        (x :: rest).getLast (List.cons_ne_nil x rest) := by
      rw [List.getLast?_eq_getLast _ (List.cons_ne_nil x rest), Option.getD_some]
    show x.min < ((x :: rest).getLast?.getD ⟨0, 0⟩).max
    rw [hL]
    have hLmem : (x :: rest).getLast (List.cons_ne_nil x rest) ∈ x :: rest :=
      List.getLast_mem _
    have hLne := valid_allNE hv _ hLmem
    have hxne : x.min < x.max := valid_allNE hv x (List.mem_cons_self _ _)
    rcases List.mem_cons.mp hLmem with heq | hmem
    · rw [heq]
      exact hxne
    · have hp := ordered_pairwise (valid_ordered hv) (valid_allNE hv)
      rw [List.pairwise_cons] at hp
      have := hp.1 _ hmem
      omega

theorem spanning_self_intersects {A : ISet} (hv : Valid A = true) (hne : A ≠ []) :
    ((SpanningInterval A).Intersects (SpanningInterval A)) = true := by
  have h := spanning_nonempty hv hne
  exact intersects_iff.mpr ⟨h, h, h, h⟩

/-- `FindIntersectionCandidate` of a valid set at its own first interval is
position `0`. -/
theorem fic_head {A : ISet} (hv : Valid A = true) (hne : A ≠ []) :
    FindIntersectionCandidate A A.headI = 0 := by
  have hlen : 0 < A.length := List.length_pos.mpr hne
  have hh : A.headI = A.getD 0 default := by
    cases A with
    | nil => exact absurd rfl hne
    | cons x xs => rfl
  have hu : upperBoundIdx A A.headI ≤ 1 := by
    by_contra hcon
    have hlen2 : 1 < A.length :=
      lt_of_lt_of_le (by omega) (upperBoundIdx_le_length A A.headI)
    have h1 := upperBoundIdx_lt_spec (l := A) (k := A.headI) (j := 1) (by omega)
    have hp := pairwise_getD (ordered_pairwise (valid_ordered hv) (valid_allNE hv))
      (show (0 : Nat) < 1 by omega) hlen2
    have hne0 := valid_allNE hv _ (getD_mem hlen)
    have h2 : IntervalLess A.headI (A.getD 1 default) = true := by
      rw [hh, intervalLess_iff]
      exact Or.inl (by omega)
    rw [h1] at h2
    exact Bool.false_ne_true h2
  show (if upperBoundIdx A A.headI = 0 then upperBoundIdx A A.headI
        else upperBoundIdx A A.headI - 1) = 0
  split <;> omega

/-- `Difference(A, A)` erases everything: from state `(A.drop k, k - 1)` the
loop returns the empty contents. -/
theorem diff_self_loop {A : ISet} (hv : Valid A = true) :
    ∀ fuel k, k ≤ A.length → A.length - k < fuel →
      DiffLoop A fuel (A.drop k) (k - 1) = some [] := by
  intro fuel
  induction fuel with
  | zero =>
    intro k h1 h2
    omega
  | succ f ih =>
    intro k hk hf
    by_cases hend : k = A.length
    · subst hend
      rw [List.drop_length, DiffLoop_succ]
      rw [show findPairGo [] A (List.length ([] : ISet) + A.length + 1) 0
            (A.length - 1) = some (false, 0, A.length - 1) from by
          rw [findPairGo_succ, if_pos (Or.inl (by simp))]]
    · have hklt : k < A.length := by omega
      rw [DiffLoop_succ]
      have hlendrop : (A.drop k).length = A.length - k := List.length_drop k A
      have hfind : findPairGo (A.drop k) A ((A.drop k).length + A.length + 1) 0
          (k - 1) = some (true, 0, k) := diff_self_find hv hklt (by omega)
      rw [hfind]
      have hdropk : A.drop k = A.getD k default :: A.drop (k + 1) := by
        rw [List.getD_eq_getElem _ _ hklt]
        exact List.drop_eq_getElem_cons hklt
      have hgd0 : (A.drop k).getD 0 default = A.getD k default := by
        rw [hdropk, List.getD_cons_zero]
      have hkdne : (A.getD k default).min < (A.getD k default).max :=
        valid_allNE hv _ (getD_mem hklt)
      have hhi_e : (((A.drop k).getD 0 default).Difference
          (A.getD k default)).2.Empty = true := by
        rw [hgd0, empty_iff]
        show (A.getD k default).max ≤
          Max.max (A.getD k default).min (A.getD k default).max
        omega
      have hlo_e : (((A.drop k).getD 0 default).Difference
          (A.getD k default)).1.Empty = true := by
        rw [hgd0, empty_iff]
        show Min.min (A.getD k default).max (A.getD k default).min ≤
          (A.getD k default).min
        omega
      show (match DiffLoop A f (if (((A.drop k).getD 0 default).Difference
            (A.getD k default)).2.Empty then (A.drop k).drop (0 + 1)
            else (((A.drop k).getD 0 default).Difference (A.getD k default)).2 ::
              (A.drop k).drop (0 + 1)) k with
          | none => none
          | some tail => some ((A.drop k).take 0 ++
              (if (((A.drop k).getD 0 default).Difference (A.getD k default)).1.Empty
               then []
               else [(((A.drop k).getD 0 default).Difference (A.getD k default)).1])
              ++ tail)) = some []
      rw [if_pos hhi_e, if_pos hlo_e]
      rw [show (0 + 1 : Nat) = 1 from rfl, List.drop_drop]
      have hrec := ih (k + 1) (by omega) (by omega)
      rw [show k + 1 - 1 = k from rfl] at hrec
      rw [hrec]
      simp

/-- C5: `Difference` identities — `A \ A = ∅`, `A \ ∅ = A`, `∅ \ A = ∅`. -/
theorem C5_difference_identities :
    (∀ A : ISet, Valid A = true → DifferenceSet A A = []) ∧
    (∀ A : ISet, DifferenceSet A [] = A) ∧
    (∀ A : ISet, DifferenceSet [] A = []) := by
  have hempty_r : ∀ A : ISet, DifferenceSet A [] = A := by
    intro A
    rw [DifferenceSet, if_pos]
    simp [SpanningInterval, QuicInterval.Intersects, QuicInterval.Empty]
  have hempty_l : ∀ A : ISet, DifferenceSet [] A = [] := by
    intro A
    rw [DifferenceSet, if_pos]
    simp [SpanningInterval, QuicInterval.Intersects, QuicInterval.Empty]
  refine ⟨?_, hempty_r, hempty_l⟩
  intro A hv
  by_cases hne : A = []
  · rw [hne]
    exact hempty_l []
  · rw [DifferenceSet, if_neg (by simp [spanning_self_intersects hv hne])]
    show (if A.length ≤ FindIntersectionCandidate A A.headI then A
      else A.take (FindIntersectionCandidate A A.headI) ++
        (DiffLoop A (A.length + 2 * A.length + 2)
          (A.drop (FindIntersectionCandidate A A.headI))
          (FindIntersectionCandidate A A.headI)).getD
          (A.drop (FindIntersectionCandidate A A.headI))) = []
    rw [fic_head hv hne]
    rw [if_neg (by have := List.length_pos.mpr hne; omega)]
    have hloop := diff_self_loop hv (A.length + 2 * A.length + 2) 0
      (by omega) (by omega)
    rw [show (0 - 1 : Nat) = 0 from rfl] at hloop
    rw [hloop, Option.getD_some]
    simp

theorem C5_difference_identities_witness :
    DifferenceSet [⟨3, 7⟩, ⟨9, 12⟩] [⟨3, 7⟩, ⟨9, 12⟩] = [] :=
  C5_difference_identities.1 [⟨3, 7⟩, ⟨9, 12⟩] (by decide)

theorem not_intersects_of_le_min {s i : QuicInterval} (h : s.max ≤ i.min) :
    s.Intersects i = false := by
  cases hb : s.Intersects i
  · rfl
  · obtain ⟨_, _, h1, _⟩ := intersects_iff.mp hb
    omega

theorem not_intersects_of_ge_max {s i : QuicInterval} (h : i.max ≤ s.min) :
    s.Intersects i = false := by
  cases hb : s.Intersects i
  · rfl
  · obtain ⟨_, _, _, h2⟩ := intersects_iff.mp hb
    omega

/-- In a valid set the first interval has the least `min`. -/
theorem head_min_le {A : ISet} (hv : Valid A = true) :
    ∀ s ∈ A, A.headI.min ≤ s.min := by
  cases A with
  | nil => simp
  | cons x rest =>
    intro s hs
    rcases List.mem_cons.mp hs with rfl | hmem
    · exact le_rfl
    · have hp := ordered_pairwise (valid_ordered hv) (valid_allNE hv)
      rw [List.pairwise_cons] at hp
      have h1 := hp.1 s hmem
      have h2 := valid_allNE hv x (List.mem_cons_self _ _)
      show x.min ≤ s.min
      omega

/-- In a valid set the last interval has the greatest `max`. -/
theorem max_le_last {A : ISet} (hv : Valid A = true) :
    ∀ s ∈ A, s.max ≤ (A.getLast?.getD ⟨0, 0⟩).max := by
  induction A with
  | nil => simp
  | cons x rest ih =>
    intro s hs
    cases rest with
    | nil =>
      rcases List.mem_cons.mp hs with rfl | h
      · simp
      · simp at h
    | cons r rs =>
      have hvt : Valid (r :: rs) = true :=
        valid_sublist hv (List.drop_sublist 1 (x :: r :: rs))
      rw [List.getLast?_cons_cons]
      rcases List.mem_cons.mp hs with rfl | h
      · have hr := ih hvt r (List.mem_cons_self _ _)
        have ho := valid_ordered hv
        rw [Ordered, List.chain'_cons] at ho
        have hrne := valid_allNE hv r (List.mem_cons_of_mem _ (List.mem_cons_self _ _))
        omega
      · exact ih hvt s h

/-- Every member of a valid set lies inside the spanning interval. -/
theorem mem_in_span {A : ISet} (hv : Valid A = true) {s : QuicInterval} (hs : s ∈ A) :
    (SpanningInterval A).min ≤ s.min ∧ s.max ≤ (SpanningInterval A).max := by
  cases A with
  | nil => simp at hs
  | cons x rest =>
    exact ⟨head_min_le hv s hs, max_le_last hv s hs⟩

/-- Adding a non-empty interval to the empty set yields the singleton set. -/
theorem add_nil {i : QuicInterval} (h : i.Empty = false) : Add [] i = [i] := by
  have hne := not_empty_iff.mp h
  have hub : upperBoundIdx [i] ⟨i.max, i.max⟩ = 1 := by
    rw [upperBoundIdx, if_neg]
    · rfl
    · intro hc
      rcases intervalLess_mk_left.mp hc with h1 | ⟨h1, h2⟩ <;> omega
  rw [Add, if_neg (by rw [h]; exact Bool.false_ne_true)]
  show compactSeg [i] (if (0 : Nat) = 0 then 0 else 0 - 1)
    (upperBoundIdx [i] ⟨i.max, i.max⟩) = [i]
  rw [hub, if_pos rfl]
  rfl

/-- `FindIntersectionCandidate` on a one-element index is position `0`. -/
theorem fic_singleton (i v : QuicInterval) : FindIntersectionCandidate [i] v = 0 := by
  have h := upperBoundIdx_le_length [i] v
  rw [List.length_singleton] at h
  show (if upperBoundIdx [i] v = 0 then upperBoundIdx [i] v
    else upperBoundIdx [i] v - 1) = 0
  split <;> omega

/-- Every interval strictly before the intersection candidate ends at or
before `i.min` — it cannot intersect `i`. -/
theorem fic_skipped {A : ISet} (hv : Valid A = true) (i : QuicInterval) :
    ∀ s ∈ A.take (FindIntersectionCandidate A i), s.max ≤ i.min := by
  intro s hs
  have hfic : FindIntersectionCandidate A i =
      if upperBoundIdx A i = 0 then upperBoundIdx A i else upperBoundIdx A i - 1 := rfl
  by_cases h0 : upperBoundIdx A i = 0
  · rw [hfic, if_pos h0, h0] at hs
    simp at hs
  · rw [hfic, if_neg h0] at hs
    obtain ⟨j, hj, hjs⟩ := List.mem_iff_getElem.mp hs
    have hjlt : j < upperBoundIdx A i - 1 := by
      rw [List.length_take] at hj
      omega
    have hjlen : j < A.length := by
      rw [List.length_take] at hj
      omega
    have hulen := upperBoundIdx_le_length A i
    have hu1lt : upperBoundIdx A i - 1 < A.length := by omega
    have hA1 := upperBoundIdx_lt_spec (l := A) (k := i)
      (j := upperBoundIdx A i - 1) (by omega)
    have hA1' : ¬(IntervalLess i (A.getD (upperBoundIdx A i - 1) default) = true) := by
      rw [hA1]
      exact Bool.false_ne_true
    rw [intervalLess_iff] at hA1'
    have hch := pairwise_getD (ordered_pairwise (valid_ordered hv) (valid_allNE hv))
      hjlt hu1lt
    have hsj : A.getD j default = s := by
      rw [List.getD_eq_getElem _ _ hjlen]
      exact (List.getElem_take A (h := hj)).symm.trans hjs
    rw [hsj] at hch
    omega

/-- On a singleton `other` the erasing walk exits within two iterations of
the outer loop: either it reports no intersection, having erased every
survivor and none of the scanned intervals intersects `i`, or it stops at the
first surviving interval, which intersects `i`. -/
theorem eraseGo_singleton {i : QuicInterval} (hine : i.min < i.max) {xs : ISet}
    (hvxs : Valid xs = true) {fuel : Nat} (hf : 2 ≤ fuel) :
    (∃ th, findPairEraseGo [i] fuel xs 0 = some (false, [], th) ∧
      ∀ s ∈ xs, s.Intersects i = false) ∨
    (∃ xs2, findPairEraseGo [i] fuel xs 0 = some (true, xs2, 0) ∧ xs2 ≠ [] ∧
      (xs2.headI.Intersects i) = true ∧ xs2.Sublist xs) := by
  obtain ⟨f, rfl⟩ : ∃ f, fuel = f + 1 + 1 := ⟨fuel - 2, by omega⟩
  by_cases hxs : xs = []
  · subst hxs
    left
    exact ⟨0, by
      rw [findPairEraseGo_succ, if_pos (show ([] : ISet).length = 0 ∨
        ([i] : ISet).length ≤ 0 from Or.inl rfl)], by simp⟩
  · have hxl : 0 < xs.length := List.length_pos.mpr hxs
    have hlen0 : ¬(xs.length = 0 ∨ (1 : Nat) ≤ 0) :=
      not_or.mpr ⟨by omega, by omega⟩
    by_cases hint : (xs.headI.Intersects i) = true
    · right
      refine ⟨xs, ?_, hxs, hint, List.Sublist.refl xs⟩
      rw [findPairEraseGo_succ]
      simp only [List.getD_cons_zero, List.length_singleton, List.drop_zero]
      rw [if_neg hlen0, if_pos hint]
    · by_cases h2 : (xs.drop (skipLe i.min xs)).length = 0
      · left
        refine ⟨0, ?_, ?_⟩
        · rw [findPairEraseGo_succ]
          simp only [List.getD_cons_zero, List.length_singleton, List.drop_zero]
          rw [if_neg hlen0, if_neg hint, if_pos h2, List.length_eq_zero.mp h2]
        · intro s hs
          obtain ⟨j, hj, hjs⟩ := List.mem_iff_getElem.mp hs
          have hdl := List.length_drop (skipLe i.min xs) xs
          have hjk : j < skipLe i.min xs := by omega
          have hmax := skipLe_lt_spec hjk
          rw [List.getD_eq_getElem _ _ hj, hjs] at hmax
          exact not_intersects_of_le_min hmax
      · have hklen : skipLe i.min xs < xs.length := by
          have h3 := List.length_drop (skipLe i.min xs) xs
          omega
        have hhead2 : (xs.drop (skipLe i.min xs)).headI =
            xs.getD (skipLe i.min xs) default := by
          rw [List.getD_eq_getElem _ _ hklen, List.drop_eq_getElem_cons hklen]
          rfl
        have hmaxgt : i.min < (xs.drop (skipLe i.min xs)).headI.max := by
          rw [hhead2]
          exact skipLe_stop hklen
        have hne2 : xs.drop (skipLe i.min xs) ≠ [] := by
          intro hc
          exact h2 (by rw [hc]; rfl)
        have hsub2 : (xs.drop (skipLe i.min xs)).Sublist xs := List.drop_sublist _ _
        have hvd : Valid (xs.drop (skipLe i.min xs)) = true := valid_sublist hvxs hsub2
        have hh2ne : (xs.drop (skipLe i.min xs)).headI.min <
            (xs.drop (skipLe i.min xs)).headI.max :=
          valid_allNE hvd _ (headI_mem hne2)
        by_cases hc : i.max ≤ (xs.drop (skipLe i.min xs)).headI.min
        · have hskip2 : skipLe (xs.drop (skipLe i.min xs)).headI.min [i] = 1 := by
            rw [skipLe, if_pos hc]
            rfl
          left
          refine ⟨1, ?_, ?_⟩
          · rw [findPairEraseGo_succ]
            simp only [List.getD_cons_zero, List.length_singleton, List.drop_zero]
            rw [if_neg hlen0, if_neg hint, if_neg h2, if_pos (by rw [hskip2]),
              hskip2]
          · intro s hs
            have hs' := hs
            rw [← List.take_append_drop (skipLe i.min xs) xs] at hs'
            rcases List.mem_append.mp hs' with htk | hdr
            · obtain ⟨j, hj, hjs⟩ := List.mem_iff_getElem.mp htk
              have hjk : j < skipLe i.min xs := by
                rw [List.length_take] at hj
                omega
              have hjlen : j < xs.length := by
                rw [List.length_take] at hj
                omega
              have hmax := skipLe_lt_spec hjk
              rw [List.getD_eq_getElem _ _ hjlen,
                (List.getElem_take xs (h := hj)).symm.trans hjs] at hmax
              exact not_intersects_of_le_min hmax
            · have hh := head_min_le hvd s hdr
              exact not_intersects_of_ge_max (by omega)
        · have hskip2 : skipLe (xs.drop (skipLe i.min xs)).headI.min [i] = 0 := by
            rw [skipLe, if_neg hc]
          have hint2 : ((xs.drop (skipLe i.min xs)).headI.Intersects i) = true := by
            rw [intersects_iff]
            exact ⟨hh2ne, hine, hmaxgt, by omega⟩
          right
          refine ⟨xs.drop (skipLe i.min xs), ?_, hne2, hint2, hsub2⟩
          rw [findPairEraseGo_succ]
          simp only [List.getD_cons_zero, List.length_singleton, List.drop_zero]
          rw [if_neg hlen0, if_neg hint, if_neg h2, if_neg (by rw [hskip2]; omega),
            hskip2]
          rw [findPairEraseGo_succ]
          simp only [Nat.add_zero, List.getD_cons_zero, List.length_singleton]
          rw [if_neg (not_or.mpr ⟨h2, by omega⟩), if_pos hint2]

/-- On a singleton `other` the outer loop of `Intersection` terminates and
returns the empty contents exactly when no interval of the walked suffix
intersects `i`. -/
theorem interLoop_singleton {i : QuicInterval} (hine : i.min < i.max) :
    ∀ {fuel : Nat} {xs : ISet}, Valid xs = true → xs.length < fuel →
      ∃ out, IntersectionLoop [i] fuel xs 0 = some out ∧
        (out = [] ↔ ∀ s ∈ xs, s.Intersects i = false) := by
  intro fuel
  induction fuel with
  | zero =>
    intro xs _ h
    omega
  | succ f ih =>
    intro xs hv hlen
    rcases eraseGo_singleton hine hv (show (2 : Nat) ≤ xs.length + ([i] : ISet).length + 1
        from by rw [List.length_singleton]; omega) with
      ⟨th, heq, hnone⟩ | ⟨xs2, heq, hne2, hint2, hsub2⟩
    · refine ⟨[], ?_, iff_of_true rfl hnone⟩
      rw [IntersectionLoop_succ, heq]
    · have hcol : collectInters xs2.headI (([i] : ISet).drop 0) =
          [xs2.headI.IntersectionWith i] := by
        rw [List.drop_zero, collectInters, if_pos hint2]
        rfl
      have hv2 : Valid (xs2.drop 1) = true :=
        valid_sublist (valid_sublist hv hsub2) (List.drop_sublist 1 xs2)
      have hlen2 : (xs2.drop 1).length < f := by
        have h1 := hsub2.length_le
        have h2 := List.length_pos.mpr hne2
        rw [List.length_drop]
        omega
      obtain ⟨out', hout', hiff'⟩ := ih hv2 hlen2
      refine ⟨collectInters xs2.headI (([i] : ISet).drop 0) ++ out', ?_, ?_⟩
      · rw [IntersectionLoop_succ, heq]
        have harg : 0 + (collectInters xs2.headI (([i] : ISet).drop 0)).length - 1
            = 0 := by
          rw [hcol]
          rfl
        show (match IntersectionLoop [i] f (xs2.drop 1)
              (0 + (collectInters xs2.headI (([i] : ISet).drop 0)).length - 1) with
          | none => none
          | some rest => some (collectInters xs2.headI (([i] : ISet).drop 0) ++ rest)) =
          some (collectInters xs2.headI (([i] : ISet).drop 0) ++ out')
        rw [harg, hout']
      · apply iff_of_false
        · rw [hcol]
          simp
        · intro hall
          have hh := hall xs2.headI (hsub2.subset (headI_mem hne2))
          rw [hh] at hint2
          exact Bool.false_ne_true hint2

/-- The body of `IsDisjoint` on a non-empty probe, with the branch conditions
lifted to propositions. -/
theorem isDisjoint_step {A : ISet} {i : QuicInterval} (hie : i.Empty = false) :
    IsDisjoint A i =
      (if upperBoundIdx A ⟨i.min, i.min⟩ < A.length ∧
          (A.getD (upperBoundIdx A ⟨i.min, i.min⟩) default).min < i.max then false
       else if upperBoundIdx A ⟨i.min, i.min⟩ = 0 then true
       else decide ((A.getD (upperBoundIdx A ⟨i.min, i.min⟩ - 1) default).max
          ≤ i.min)) := by
  rw [IsDisjoint, if_neg (by rw [hie]; exact Bool.false_ne_true)]
  show (if (decide (upperBoundIdx A ⟨i.min, i.min⟩ < A.length) &&
        decide ((A.getD (upperBoundIdx A ⟨i.min, i.min⟩) default).min < i.max)) = true
      then false
      else if upperBoundIdx A ⟨i.min, i.min⟩ = 0 then true
      else decide ((A.getD (upperBoundIdx A ⟨i.min, i.min⟩ - 1) default).max ≤ i.min))
      = _
  by_cases hc : upperBoundIdx A ⟨i.min, i.min⟩ < A.length ∧
      (A.getD (upperBoundIdx A ⟨i.min, i.min⟩) default).min < i.max
  · rw [if_pos (by rw [decide_eq_true hc.1, decide_eq_true hc.2]; rfl), if_pos hc]
  · rw [if_neg (fun hcc => hc (by
        rw [Bool.and_eq_true, decide_eq_true_eq, decide_eq_true_eq] at hcc
        exact hcc)), if_neg hc]

/-- `IsDisjoint` is exhaustive: on a valid set it reports `true` exactly when
no stored interval intersects the non-empty probe interval. -/
theorem isDisjoint_iff {A : ISet} (hv : Valid A = true) {i : QuicInterval}
    (hine : i.min < i.max) :
    IsDisjoint A i = true ↔ ∀ s ∈ A, s.Intersects i = false := by
  have hie : i.Empty = false := not_empty_iff.mpr hine
  have hp := ordered_pairwise (valid_ordered hv) (valid_allNE hv)
  have hul := upperBoundIdx_le_length A ⟨i.min, i.min⟩
  rw [isDisjoint_step hie]
  by_cases h1 : upperBoundIdx A ⟨i.min, i.min⟩ < A.length ∧
      (A.getD (upperBoundIdx A ⟨i.min, i.min⟩) default).min < i.max
  · rw [if_pos h1]
    apply iff_of_false Bool.false_ne_true
    intro hall
    have hmem := getD_mem h1.1
    have hless := upperBoundIdx_ge_spec (valid_pairwise_lessP hv) le_rfl h1.1
    have hne := valid_allNE hv _ hmem
    rw [intervalLess_mk_left] at hless
    have hintr : ((A.getD (upperBoundIdx A ⟨i.min, i.min⟩) default).Intersects i)
        = true := by
      rw [intersects_iff]
      exact ⟨hne, hine, by omega, h1.2⟩
    rw [hall _ hmem] at hintr
    exact Bool.false_ne_true hintr
  · rw [if_neg h1]
    by_cases h0 : upperBoundIdx A ⟨i.min, i.min⟩ = 0
    · rw [if_pos h0]
      apply iff_of_true rfl
      intro s hs
      obtain ⟨j, hjl, hjs⟩ := List.mem_iff_getElem.mp hs
      have hless := upperBoundIdx_ge_spec (l := A) (k := ⟨i.min, i.min⟩)
        (valid_pairwise_lessP hv) (by omega) hjl
      rw [intervalLess_mk_left] at hless
      have hne := valid_allNE hv _ (getD_mem hjl)
      have h1' : ¬(0 < A.length ∧ (A.getD 0 default).min < i.max) := by
        rw [h0] at h1
        exact h1
      have h0j : (A.getD 0 default).min ≤ (A.getD j default).min := by
        rcases Nat.eq_zero_or_pos j with rfl | hjpos
        · exact le_rfl
        · have hch := pairwise_getD hp hjpos hjl
          have h00 := valid_allNE hv _ (getD_mem (show 0 < A.length by omega))
          omega
      have hsj : A.getD j default = s := by
        rw [List.getD_eq_getElem _ _ hjl]
        exact hjs
      refine not_intersects_of_ge_max ?_
      rw [← hsj]
      omega
    · rw [if_neg h0, decide_eq_true_eq]
      have hu1lt : upperBoundIdx A ⟨i.min, i.min⟩ - 1 < A.length := by omega
      constructor
      · intro hle s hs
        obtain ⟨j, hjl, hjs⟩ := List.mem_iff_getElem.mp hs
        have hsj : A.getD j default = s := by
          rw [List.getD_eq_getElem _ _ hjl]
          exact hjs
        rcases lt_trichotomy j (upperBoundIdx A ⟨i.min, i.min⟩ - 1) with hlt | heq | hgt
        · have hch := pairwise_getD hp hlt hu1lt
          have hne1 := valid_allNE hv _ (getD_mem hu1lt)
          refine not_intersects_of_le_min ?_
          rw [← hsj]
          omega
        · refine not_intersects_of_le_min ?_
          rw [← hsj, heq]
          exact hle
        · have hju : upperBoundIdx A ⟨i.min, i.min⟩ ≤ j := by omega
          have hless := upperBoundIdx_ge_spec (valid_pairwise_lessP hv) hju hjl
          rw [intervalLess_mk_left] at hless
          have hne := valid_allNE hv _ (getD_mem hjl)
          have hulen : upperBoundIdx A ⟨i.min, i.min⟩ < A.length := by omega
          have h1' : i.max ≤ (A.getD (upperBoundIdx A ⟨i.min, i.min⟩) default).min := by
            by_contra hcc
            push_neg at hcc
            exact h1 ⟨hulen, hcc⟩
          have huj : (A.getD (upperBoundIdx A ⟨i.min, i.min⟩) default).min ≤
              (A.getD j default).min := by
            rcases Nat.lt_or_ge (upperBoundIdx A ⟨i.min, i.min⟩) j with hlt2 | hge2
            · have hch := pairwise_getD hp hlt2 hjl
              have hneu := valid_allNE hv _ (getD_mem hulen)
              omega
            · have hju2 : upperBoundIdx A ⟨i.min, i.min⟩ = j := by omega
              rw [hju2]
          refine not_intersects_of_ge_max ?_
          rw [← hsj]
          omega
      · intro hall
        have hmem := getD_mem hu1lt
        have hfalse := hall _ hmem
        have hni : ¬((A.getD (upperBoundIdx A ⟨i.min, i.min⟩ - 1) default).Intersects i
            = true) := by
          rw [hfalse]
          exact Bool.false_ne_true
        rw [intersects_iff] at hni
        have hne1 := valid_allNE hv _ hmem
        have hlt1 := upperBoundIdx_lt_spec (l := A) (k := ⟨i.min, i.min⟩)
          (j := upperBoundIdx A ⟨i.min, i.min⟩ - 1) (by omega)
        have hlt1' : ¬(IntervalLess ⟨i.min, i.min⟩
            (A.getD (upperBoundIdx A ⟨i.min, i.min⟩ - 1) default) = true) := by
          rw [hlt1]
          exact Bool.false_ne_true
        rw [intervalLess_mk_left] at hlt1'
        omega

/-- `Intersection` with the singleton set `{i}` is empty exactly when no
stored interval intersects the non-empty interval `i`. -/
theorem intersection_singleton_iff {A : ISet} (hv : Valid A = true)
    {i : QuicInterval} (hine : i.min < i.max) :
    Intersection A [i] = [] ↔ ∀ s ∈ A, s.Intersects i = false := by
  by_cases hne : A = []
  · subst hne
    exact iff_of_true rfl (by simp)
  · by_cases hspan : ((SpanningInterval A).Intersects (SpanningInterval [i])) = true
    · rw [Intersection, if_neg (by rw [hspan]; simp)]
      show (IntersectionLoop [i] ((A.drop (FindIntersectionCandidate A i)).length + 1)
          (A.drop (FindIntersectionCandidate A i))
          (FindIntersectionCandidate [i]
            (A.drop (FindIntersectionCandidate A i)).headI)).getD []
          = [] ↔ ∀ s ∈ A, s.Intersects i = false
      rw [fic_singleton]
      obtain ⟨out, hout, hiff⟩ := interLoop_singleton hine
        (valid_sublist hv (List.drop_sublist (FindIntersectionCandidate A i) A))
        (show (A.drop (FindIntersectionCandidate A i)).length <
          (A.drop (FindIntersectionCandidate A i)).length + 1 by omega)
      rw [hout, Option.getD_some]
      constructor
      · intro h s hs
        have hs2 := hs
        rw [← List.take_append_drop (FindIntersectionCandidate A i) A] at hs2
        rcases List.mem_append.mp hs2 with htk | hdr
        · exact not_intersects_of_le_min (fic_skipped hv i s htk)
        · exact (hiff.mp h) s hdr
      · intro hall
        exact hiff.mpr fun s hs =>
          hall s ((List.drop_sublist (FindIntersectionCandidate A i) A).subset hs)
    · have hb : ((SpanningInterval A).Intersects (SpanningInterval [i])) = false := by
        cases h : (SpanningInterval A).Intersects (SpanningInterval [i])
        · rfl
        · exact absurd h hspan
      have heq2 : Intersection A [i] = [] := by
        rw [Intersection, if_pos (by rw [hb]; rfl)]
      refine iff_of_true heq2 ?_
      intro s hs
      have hspanA := spanning_nonempty hv hne
      have hni : ¬((SpanningInterval A).min < (SpanningInterval A).max ∧
          i.min < i.max ∧ i.min < (SpanningInterval A).max ∧
          (SpanningInterval A).min < i.max) := by
        intro hcc
        have hcc2 := intersects_iff.mpr hcc
        rw [show ((SpanningInterval A).Intersects i)
            = ((SpanningInterval A).Intersects (SpanningInterval [i])) from rfl] at hcc2
        rw [hb] at hcc2
        exact Bool.false_ne_true hcc2
      obtain ⟨hm1, hm2⟩ := mem_in_span hv hs
      have hsne := valid_allNE hv s hs
      rcases (by omega : (SpanningInterval A).max ≤ i.min ∨
          i.max ≤ (SpanningInterval A).min) with hca | hcb
      · exact not_intersects_of_le_min (by omega)
      · exact not_intersects_of_ge_max (by omega)

/-- C6: `IsDisjoint` is exhaustive — on a valid set it returns `true` exactly
when the intersection with the singleton set `{i}` is empty, and it returns
`true` for every empty interval `i`. -/
theorem C6_disjoint_iff_intersection_singleton :
    (∀ (A : ISet) (i : QuicInterval), Valid A = true →
      (IsDisjoint A i = true ↔ Intersection A (Add [] i) = [])) ∧
    (∀ (A : ISet) (i : QuicInterval), i.Empty = true → IsDisjoint A i = true) := by
  constructor
  · intro A i hv
    by_cases hie : i.Empty = true
    · have h1 : IsDisjoint A i = true := by
        rw [IsDisjoint, if_pos hie]
      have h2 : Add [] i = [] := by
        rw [Add, if_pos hie]
      have h3 : Intersection A [] = [] := by
        have hb : ((SpanningInterval A).Intersects (SpanningInterval ([] : ISet)))
            = false := by
          cases h : (SpanningInterval A).Intersects (SpanningInterval ([] : ISet))
          · rfl
          · obtain ⟨_, h2', _, _⟩ := intersects_iff.mp h
            exact absurd (show (0 : Int) < 0 from h2') (by omega)
        rw [Intersection, if_pos (by rw [hb]; rfl)]
      rw [h1, h2, h3]
      simp
    · have hif : i.Empty = false := by
        cases h : i.Empty
        · rfl
        · exact absurd h hie
      have hine := not_empty_iff.mp hif
      rw [add_nil hif, isDisjoint_iff hv hine, intersection_singleton_iff hv hine]
  · intro A i hie
    rw [IsDisjoint, if_pos hie]

theorem C6_disjoint_iff_intersection_singleton_witness :
    (IsDisjoint [⟨0, 5⟩] ⟨2, 3⟩ = true ↔ Intersection [⟨0, 5⟩] (Add [] ⟨2, 3⟩) = []) ∧
    IsDisjoint [⟨0, 5⟩] ⟨7, 7⟩ = true :=
  ⟨C6_disjoint_iff_intersection_singleton.1 [⟨0, 5⟩] ⟨2, 3⟩ (by decide),
   C6_disjoint_iff_intersection_singleton.2 [⟨0, 5⟩] ⟨7, 7⟩ (by decide)⟩

theorem getD_drop_zero {l : ISet} {k : Nat} (hk : k < l.length) :
    (l.drop k).getD 0 default = l.getD k default := by
  rw [List.getD_eq_getElem _ _ hk, List.drop_eq_getElem_cons hk]
  rfl

theorem headI_eq_getD {l : ISet} (h : l ≠ []) : l.headI = l.getD 0 default := by
  cases l with
  | nil => exact absurd rfl h
  | cons x xs => rfl

/-- Fuel sufficiency for the non-erasing two-pointer walk: on valid sets,
every iteration advances at least one of the two positions, so
`(|x| - mine) + (|y| - theirs)` iterations always suffice. -/
theorem findPairGo_some {x y : ISet} (hvx : Valid x = true) (hvy : Valid y = true) :
    ∀ {fuel : Nat} {mine th : Nat},
      (x.length - mine) + (y.length - th) < fuel →
      (findPairGo x y fuel mine th).isSome = true := by
  intro fuel
  induction fuel with
  | zero =>
    intro mine th hf
    omega
  | succ f ih =>
    intro mine th hf
    rw [findPairGo_succ]
    by_cases hend : x.length ≤ mine ∨ y.length ≤ th
    · rw [if_pos hend]
      rfl
    · rw [if_neg hend]
      push_neg at hend
      by_cases hint : ((x.getD mine default).Intersects (y.getD th default)) = true
      · rw [if_pos hint]
        rfl
      · rw [if_neg hint]
        by_cases h2 : x.length ≤ mine + skipLe (y.getD th default).min (x.drop mine)
        · rw [if_pos h2]
          rfl
        · rw [if_neg h2]
          by_cases h3 : y.length ≤ th + skipLe
              (x.getD (mine + skipLe (y.getD th default).min (x.drop mine)) default).min
              (y.drop th)
          · rw [if_pos h3]
            rfl
          · rw [if_neg h3]
            push_neg at h2 h3
            have hskip : ¬(skipLe (y.getD th default).min (x.drop mine) = 0 ∧
                skipLe (x.getD (mine + skipLe (y.getD th default).min (x.drop mine))
                  default).min (y.drop th) = 0) := by
              rintro ⟨hs1, hs2⟩
              rw [hs1, Nat.add_zero] at hs2
              have hd1 : 0 < (x.drop mine).length := by
                rw [List.length_drop]
                omega
              have hd2 : 0 < (y.drop th).length := by
                rw [List.length_drop]
                omega
              have hst1 := skipLe_stop (show skipLe (y.getD th default).min (x.drop mine)
                  < (x.drop mine).length from by rw [hs1]; exact hd1)
              rw [hs1, getD_drop_zero hend.1] at hst1
              have hst2 := skipLe_stop (show skipLe (x.getD mine default).min (y.drop th)
                  < (y.drop th).length from by rw [hs2]; exact hd2)
              rw [hs2, getD_drop_zero hend.2] at hst2
              have hnex := valid_allNE hvx _ (getD_mem hend.1)
              have hney := valid_allNE hvy _ (getD_mem hend.2)
              exact hint (intersects_iff.mpr ⟨hnex, hney, hst1, hst2⟩)
            exact ih (by omega)

theorem compactFuel_succ_nil (fuel : Nat) (prev : QuicInterval) :
    compactFuel (fuel + 1) prev [] = some [prev] := rfl

theorem compactFuel_succ_cons (fuel : Nat) (prev z : QuicInterval) (rest : ISet) :
    compactFuel (fuel + 1) prev (z :: rest) =
      if z.min ≤ prev.max then
        compactFuel fuel ⟨prev.min, Max.max prev.max z.max⟩ rest
      else (compactFuel fuel z rest).map (fun t => prev :: t) := rfl

/-- The `Compact` loop terminates: with more fuel than the segment length the
fueled loop completes and computes exactly the structural walk. -/
theorem compactFuel_eq : ∀ {l : ISet} {prev : QuicInterval} {fuel : Nat},
    l.length < fuel → compactFuel fuel prev l = some (compactGo prev l) := by
  intro l
  induction l with
  | nil =>
    intro prev fuel hf
    obtain ⟨f, rfl⟩ : ∃ f, fuel = f + 1 := ⟨fuel - 1, by omega⟩
    rw [compactFuel_succ_nil, compactGo]
  | cons z rest ih =>
    intro prev fuel hf
    obtain ⟨f, rfl⟩ : ∃ f, fuel = f + 1 := ⟨fuel - 1, by omega⟩
    have hlen : rest.length < f := by
      rw [List.length_cons] at hf
      omega
    rw [compactFuel_succ_cons, compactGo]
    by_cases hc : z.min ≤ prev.max
    · rw [if_pos hc, if_pos hc, ih hlen]
    · rw [if_neg hc, if_neg hc, ih hlen, Option.map_some']

/-- Fuel sufficiency for the erasing two-pointer walk on valid sets. -/
theorem findPairEraseGo_some {y : ISet} (hvy : Valid y = true) :
    ∀ {fuel : Nat} {xs : ISet} {th : Nat}, Valid xs = true →
      xs.length + (y.length - th) < fuel →
      (findPairEraseGo y fuel xs th).isSome = true := by
  intro fuel
  induction fuel with
  | zero =>
    intro xs th _ hf
    omega
  | succ f ih =>
    intro xs th hvx hf
    rw [findPairEraseGo_succ]
    by_cases hend : xs.length = 0 ∨ y.length ≤ th
    · rw [if_pos hend]
      rfl
    · rw [if_neg hend]
      push_neg at hend
      by_cases hint : (xs.headI.Intersects (y.getD th default)) = true
      · rw [if_pos hint]
        rfl
      · rw [if_neg hint]
        by_cases h2 : (xs.drop (skipLe (y.getD th default).min xs)).length = 0
        · rw [if_pos h2]
          rfl
        · rw [if_neg h2]
          by_cases h3 : y.length ≤ th + skipLe
              (xs.drop (skipLe (y.getD th default).min xs)).headI.min (y.drop th)
          · rw [if_pos h3]
            rfl
          · rw [if_neg h3]
            push_neg at h3
            have hxne : xs ≠ [] := by
              intro hc
              exact hend.1 (by rw [hc]; rfl)
            have hxl : 0 < xs.length := List.length_pos.mpr hxne
            have hskip : ¬(skipLe (y.getD th default).min xs = 0 ∧
                skipLe (xs.drop (skipLe (y.getD th default).min xs)).headI.min
                  (y.drop th) = 0) := by
              rintro ⟨hs1, hs2⟩
              rw [hs1, List.drop_zero] at hs2
              have hd2 : 0 < (y.drop th).length := by
                rw [List.length_drop]
                omega
              have hst1 := skipLe_stop (show skipLe (y.getD th default).min xs
                  < xs.length from by rw [hs1]; exact hxl)
              rw [hs1] at hst1
              have hst2 := skipLe_stop (show skipLe xs.headI.min (y.drop th)
                  < (y.drop th).length from by rw [hs2]; exact hd2)
              rw [hs2, getD_drop_zero hend.2] at hst2
              have hnex := valid_allNE hvx _ (headI_mem hxne)
              have hney := valid_allNE hvy _ (getD_mem hend.2)
              rw [← headI_eq_getD hxne] at hst1
              exact hint (intersects_iff.mpr ⟨hnex, hney, hst1, hst2⟩)
            refine ih (valid_sublist hvx (List.drop_sublist _ _)) ?_
            have hd1l := List.length_drop (skipLe (y.getD th default).min xs) xs
            have hsle := skipLe_le_length (y.getD th default).min xs
            omega

/-- Fuel sufficiency for the outer loop of `Intersection`: every iteration
consumes the head of the surviving suffix. -/
theorem IntersectionLoop_some {y : ISet} (hvy : Valid y = true) :
    ∀ {fuel : Nat} {xs : ISet} {th : Nat}, Valid xs = true → xs.length < fuel →
      (IntersectionLoop y fuel xs th).isSome = true := by
  intro fuel
  induction fuel with
  | zero =>
    intro xs th _ h
    omega
  | succ f ih =>
    intro xs th hvx hlen
    have hin := findPairEraseGo_some hvy hvx
      (show xs.length + (y.length - th) < xs.length + y.length + 1 by omega)
    obtain ⟨res, hres⟩ := Option.isSome_iff_exists.mp hin
    obtain ⟨b, xs2, th2⟩ := res
    cases b
    · rw [IntersectionLoop_succ, hres]
      rfl
    · obtain ⟨⟨k, hk0⟩, hth0, htrue⟩ := findPairEraseGo_sound hres
      have hk : xs2 = xs.drop k := hk0
      obtain ⟨hne20, hth20, hint20⟩ := htrue rfl
      have hne2 : xs2 ≠ [] := hne20
      have hsub2 : xs2.Sublist xs := by
        rw [hk]
        exact List.drop_sublist _ _
      have hv2 : Valid (xs2.drop 1) = true :=
        valid_sublist (valid_sublist hvx hsub2) (List.drop_sublist 1 xs2)
      have hlen2 : (xs2.drop 1).length < f := by
        have hl1 := hsub2.length_le
        have hl2 := List.length_pos.mpr hne2
        rw [List.length_drop]
        omega
      have hrec : (IntersectionLoop y f (xs2.drop 1)
          (th2 + (collectInters xs2.headI (y.drop th2)).length - 1)).isSome = true :=
        ih hv2 hlen2
      obtain ⟨rest, hrest⟩ := Option.isSome_iff_exists.mp hrec
      rw [IntersectionLoop_succ, hres]
      show (match IntersectionLoop y f (xs2.drop 1)
            (th2 + (collectInters xs2.headI (y.drop th2)).length - 1) with
        | none => none
        | some rest => some (collectInters xs2.headI (y.drop th2) ++ rest)).isSome = true
      rw [hrest]
      rfl

/-- Replacing the interval at position `m` of a valid set by a non-empty
interval that ends no later keeps the suffix valid. -/
theorem valid_cons_drop {xs : ISet} (hv : Valid xs = true) {m : Nat}
    (hm : m < xs.length) {c : QuicInterval} (hc1 : c.min < c.max)
    (hc2 : c.max ≤ (xs.getD m default).max) :
    Valid (c :: xs.drop (m + 1)) = true := by
  rw [valid_iff]
  refine ⟨?_, ?_⟩
  · rw [Ordered, List.chain'_cons']
    refine ⟨?_, valid_ordered (valid_sublist hv (List.drop_sublist _ _))⟩
    intro b hb
    by_cases hlen2 : m + 1 < xs.length
    · rw [List.drop_eq_getElem_cons hlen2] at hb
      simp only [List.head?_cons, Option.mem_def, Option.some.injEq] at hb
      have hch := pairwise_getD (ordered_pairwise (valid_ordered hv) (valid_allNE hv))
        (Nat.lt_succ_self m) hlen2
      rw [List.getD_eq_getElem _ _ hlen2] at hch
      rw [← hb]
      omega
    · rw [List.drop_eq_nil_of_le (by omega)] at hb
      simp at hb
  · intro z hz
    rcases List.mem_cons.mp hz with rfl | hz2
    · exact hc1
    · exact valid_allNE hv z ((List.drop_sublist _ _).subset hz2)

/-- Fuel sufficiency for the outer loop of `Difference`: besides the plain
measure an extra unit of fuel covers the one step in which the kept high
remainder leaves the suffix length unchanged; afterwards the head cannot
intersect the current `theirs` interval again. -/
theorem DiffLoop_some_aux {y : ISet} (hvy : Valid y = true) :
    ∀ fuel : Nat, ∀ {xs : ISet} {th : Nat}, Valid xs = true →
      (xs.length + 2 * (y.length - th) + 2 ≤ fuel ∨
        (xs.length + 2 * (y.length - th) + 1 ≤ fuel ∧
          (xs = [] ∨ y.length ≤ th ∨
            (xs.headI.Intersects (y.getD th default)) = false))) →
      (DiffLoop y fuel xs th).isSome = true := by
  intro fuel
  induction fuel with
  | zero =>
    intro xs th _ hf
    rcases hf with h | ⟨h, _⟩ <;> omega
  | succ f ih =>
    intro xs th hvx hf
    have hin := findPairGo_some hvx hvy (show (xs.length - 0) + (y.length - th)
        < xs.length + y.length + 1 by omega)
    obtain ⟨res, hres⟩ := Option.isSome_iff_exists.mp hin
    obtain ⟨b, m, th2⟩ := res
    cases b
    · rw [DiffLoop_succ, hres]
      rfl
    · obtain ⟨h0m, hthth2, himpl⟩ := findPairGo_sound hres
      have hm : m < xs.length := (himpl rfl).1
      have hth2 : th2 < y.length := (himpl rfl).2.1
      have hint : ((xs.getD m default).Intersects (y.getD th2 default)) = true :=
        (himpl rfl).2.2
      have hthle : th ≤ th2 := hthth2
      have hprog : (xs.length + 2 * (y.length - th) + 1 ≤ f + 1 ∧
          (xs = [] ∨ y.length ≤ th ∨
            (xs.headI.Intersects (y.getD th default)) = false)) →
          (1 ≤ m ∨ th < th2) := by
        rintro ⟨_, hinv⟩
        by_contra hcon
        push_neg at hcon
        obtain ⟨hm0, hth2le⟩ := hcon
        have hm00 : m = 0 := by omega
        have hth2e : th2 = th := by omega
        rcases hinv with hnil | hyle | hni
        · rw [hnil] at hm
          simp at hm
        · omega
        · rw [hm00, hth2e] at hint
          rw [← headI_eq_getD (by
            intro hc
            rw [hc] at hm
            simp at hm)] at hint
          rw [hni] at hint
          exact Bool.false_ne_true hint
      by_cases hd2 : ((xs.getD m default).Difference (y.getD th2 default)).2.Empty = true
      · have hrec : (DiffLoop y f (xs.drop (m + 1)) th2).isSome = true := by
          refine ih (valid_sublist hvx (List.drop_sublist _ _)) ?_
          left
          have hdl := List.length_drop (m + 1) xs
          rcases hf with hfl | hfr
          · omega
          · have hpr := hprog hfr
            omega
        obtain ⟨tail, htail⟩ := Option.isSome_iff_exists.mp hrec
        rw [DiffLoop_succ, hres]
        show (match DiffLoop y f
              (if ((xs.getD m default).Difference (y.getD th2 default)).2.Empty then
                xs.drop (m + 1)
               else ((xs.getD m default).Difference (y.getD th2 default)).2 ::
                xs.drop (m + 1)) th2 with
          | none => none
          | some tail =>
            some (xs.take m ++
              (if ((xs.getD m default).Difference (y.getD th2 default)).1.Empty then []
               else [((xs.getD m default).Difference (y.getD th2 default)).1]) ++
              tail)).isSome = true
        rw [if_pos hd2, htail]
        rfl
      · have hd2f : ((xs.getD m default).Difference (y.getD th2 default)).2.Empty
            = false := by
          cases hq : ((xs.getD m default).Difference (y.getD th2 default)).2.Empty
          · rfl
          · exact absurd hq hd2
        have hd2ne : ((xs.getD m default).Difference (y.getD th2 default)).2.min <
            ((xs.getD m default).Difference (y.getD th2 default)).2.max :=
          not_empty_iff.mp hd2f
        have hd2max : ((xs.getD m default).Difference (y.getD th2 default)).2.max ≤
            (xs.getD m default).max := le_rfl
        have hvrest : Valid (((xs.getD m default).Difference (y.getD th2 default)).2 ::
            xs.drop (m + 1)) = true := valid_cons_drop hvx hm hd2ne hd2max
        have hinv2 : ((((xs.getD m default).Difference (y.getD th2 default)).2 ::
            xs.drop (m + 1)).headI.Intersects (y.getD th2 default)) = false := by
          apply not_intersects_of_ge_max
          show (y.getD th2 default).max ≤
            Max.max (xs.getD m default).min (y.getD th2 default).max
          exact le_max_right _ _
        have hrec : (DiffLoop y f
            (((xs.getD m default).Difference (y.getD th2 default)).2 ::
              xs.drop (m + 1)) th2).isSome = true := by
          refine ih hvrest ?_
          right
          refine ⟨?_, Or.inr (Or.inr hinv2)⟩
          have hdl := List.length_drop (m + 1) xs
          rw [List.length_cons, hdl]
          rcases hf with hfl | hfr
          · omega
          · have hpr := hprog hfr
            omega
        obtain ⟨tail, htail⟩ := Option.isSome_iff_exists.mp hrec
        rw [DiffLoop_succ, hres]
        show (match DiffLoop y f
              (if ((xs.getD m default).Difference (y.getD th2 default)).2.Empty then
                xs.drop (m + 1)
               else ((xs.getD m default).Difference (y.getD th2 default)).2 ::
                xs.drop (m + 1)) th2 with
          | none => none
          | some tail =>
            some (xs.take m ++
              (if ((xs.getD m default).Difference (y.getD th2 default)).1.Empty then []
               else [((xs.getD m default).Difference (y.getD th2 default)).1]) ++
              tail)).isSome = true
        rw [if_neg hd2, htail]
        rfl

/-- C9: on valid interval sets every container loop terminates — the
two-pointer walk of `FindNextIntersectingPair` within
`(|x| - mine) + (|y| - theirs) + 1` iterations, the `Compact` merge loop
within one iteration per merged element, the outer loop of `Intersection`
within one iteration per surviving element, and the outer loop of
`Difference` within `|self| + 2|other| + 2` iterations. -/
theorem C9_termination :
    (∀ (x y : ISet), Valid x = true → Valid y = true → ∀ mine th fuel : Nat,
        (x.length - mine) + (y.length - th) < fuel →
        (findPairGo x y fuel mine th).isSome = true) ∧
    (∀ (l : ISet) (prev : QuicInterval) (fuel : Nat), l.length < fuel →
        compactFuel fuel prev l = some (compactGo prev l)) ∧
    (∀ (x y : ISet), Valid x = true → Valid y = true → ∀ th fuel : Nat,
        x.length < fuel → (IntersectionLoop y fuel x th).isSome = true) ∧
    (∀ (x y : ISet), Valid x = true → Valid y = true → ∀ th fuel : Nat,
        x.length + 2 * (y.length - th) + 2 ≤ fuel →
        (DiffLoop y fuel x th).isSome = true) := by
  refine ⟨?_, ?_, ?_, ?_⟩
  · intro x y hvx hvy mine th fuel hf
    exact findPairGo_some hvx hvy hf
  · intro l prev fuel hf
    exact compactFuel_eq hf
  · intro x y hvx hvy th fuel hf
    exact IntersectionLoop_some hvy hvx hf
  · intro x y hvx hvy th fuel hf
    exact DiffLoop_some_aux hvy fuel hvx (Or.inl hf)

theorem C9_termination_witness :
    (findPairGo [⟨0, 1⟩] [⟨2, 3⟩] 3 0 0).isSome = true ∧
    compactFuel 3 ⟨0, 1⟩ [⟨2, 3⟩] = some (compactGo ⟨0, 1⟩ [⟨2, 3⟩]) ∧
    (IntersectionLoop [⟨2, 3⟩] 2 [⟨0, 1⟩] 0).isSome = true ∧
    (DiffLoop [⟨2, 3⟩] 5 [⟨0, 1⟩] 0).isSome = true :=
  ⟨C9_termination.1 [⟨0, 1⟩] [⟨2, 3⟩] (by decide) (by decide) 0 0 3 (by decide),
   C9_termination.2.1 [⟨2, 3⟩] ⟨0, 1⟩ 3 (by decide),
   C9_termination.2.2.1 [⟨0, 1⟩] [⟨2, 3⟩] (by decide) (by decide) 0 2 (by decide),
   C9_termination.2.2.2 [⟨0, 1⟩] [⟨2, 3⟩] (by decide) (by decide) 0 5 (by decide)⟩

end QuicIntervalSet

end QuicModel
